import Mathlib

/-!
Shallow embedding of `torch/distributed/_shard/api.py` (sharding control
logic): tensor sharding with cross-rank agreement validation, parameter
replacement on modules, output-transformation hooks, plan application over
a module tree, and the process-group scoping context.

External collaborators (the sharding-spec `shard` math, the collective
layer, the host object model of `torch.nn.Module`) are not part of the
file under verification; they are modelled from the spec where the claims
need them, as noted at each definition.
-/

set_option autoImplicit false

namespace ShardApi

/-- Opaque process-group handle (spec section 3: identity only). -/
structure ProcessGroup where
  pgid : Nat
deriving DecidableEq

/-- A tensor, as visible to this subsystem: an object identity (Python
`id`, used by the aliasing memo), a shape, and a contiguity flag.
Element data is opaque to `api.py` and omitted. -/
structure Tensor where
  objId : Nat
  shape : List Nat
  contiguous : Bool
deriving DecidableEq

/-- `t.size(d)`: extent along dimension `d` (dimension assumed in range
wherever the code queries it). -/
def Tensor.size (t : Tensor) (d : Nat) : Nat :=
  t.shape.getD d 0

/-- `t.squeeze(d)`: drop dimension `d` when its extent is 1, else return
the tensor unchanged (torch semantics of dimensioned squeeze). -/
def Tensor.squeeze (t : Tensor) (d : Nat) : Tensor :=
  if t.size d = 1 then ⟨t.objId, t.shape.eraseIdx d, t.contiguous⟩ else t

/-- Sharding specification (spec section 3): opaque, compared by value
equality; the chunk variant exposes the dimension it splits along and its
placements, any other concrete spec kind is collapsed into `enumerable`. -/
inductive ShardingSpec where
  | chunk (dim : Nat) (placements : List Nat)
  | enumerable (tag : Nat)
deriving DecidableEq

/-- Modelled from the spec: a `ShardedTensor` as consumed by `api.py` —
it can recover its own originating specification (`_sharding_spec`) and
extract the local shard (`local_tensor()`). -/
structure ShardedValue where
  sharding_spec : ShardingSpec
  local_tensor : Tensor
deriving DecidableEq

/-- Modelled from the spec: a `_PartialTensor` (not-yet-materialized
sharded value), opaque to this subsystem. -/
structure PartialValue where
  tag : Nat
deriving DecidableEq

/-- The distinct error exits of `api.py`, one constructor per raise site
(the code raises `ValueError`/`RuntimeError` with distinguishing messages;
the constructor arguments carry exactly the data the messages embed). -/
inductive ApiError where
  | notFound (param_name : String)
  | typeMismatch (param_name : String) (actual : String)
  | invalidInput (what : String)
  | inconsistentSrcRank (currentRank srcLocal peerIdx srcPeer : Nat)
  | inconsistentSpec (currentRank : Nat) (specLocal : ShardingSpec)
      (peerIdx : Nat) (specPeer : ShardingSpec)
  | reentrantLoad
  | shardOpFailed (tag : Nat)
deriving DecidableEq

/-- A Python value sitting in a module attribute slot. -/
inductive PyValue where
  | tensor (t : Tensor)
  | sharded (sv : ShardedValue)
  | pynone
  | other (tyName : String)
deriving DecidableEq

/-- `type(v).__name__`, as reported in the TypeMismatch error message. -/
def PyValue.tyNameOf : PyValue → String
  | .tensor _ => "Tensor"
  | .sharded _ => "ShardedTensor"
  | .pynone => "NoneType"
  | .other s => s

/-- A value flowing out of a module's forward computation, as inspected
by the output-transformation hooks. -/
inductive TValue where
  | dense (t : Tensor)
  | sharded (sv : ShardedValue)
  | partialT (p : PartialValue)
  | other (tag : Nat)
deriving DecidableEq

/-- A registered forward hook, as data: the two hook closures that
`api.py` ever registers, identified with their captured arguments. -/
inductive Hook where
  | reshard (spec : ShardingSpec)
  | collectLocalShard
deriving DecidableEq

/-- Modelled from the spec: the external collaborators of `api.py` for a
fixed SPMD process — the collective layer (what `all_gather_object`
delivers when this process contributes its `(src_rank, spec)` pair, and
this process's rank in the resolved group) and the pluggable
sharding-specification capability (`spec.shard` and the reshard
operations on sharded/partial values). -/
structure ShardEnv where
  allGather : Option ProcessGroup → Nat → ShardingSpec → List (Nat × ShardingSpec)
  rankOf : Option ProcessGroup → Nat
  shardOp : ShardingSpec → Tensor → Nat → Option ProcessGroup → Except ApiError ShardedValue
  reshardS : ShardedValue → ShardingSpec → TValue
  reshardP : PartialValue → ShardingSpec → TValue

/- Association-list primitives standing for Python dict operations
(`_parameters`, `__dict__`, `_modules` are insertion-ordered dicts). -/

/-- Dict lookup: first entry with the given key. -/
def lookupA {α : Type} : List (String × α) → String → Option α
  | [], _ => none
  | (k, v) :: rest, key => if k = key then some v else lookupA rest key

/-- Dict `del`: remove the entry with the given key (first occurrence). -/
def eraseKeyA {α : Type} : List (String × α) → String → List (String × α)
  | [], _ => []
  | (k, v) :: rest, key => if k = key then rest else (k, v) :: eraseKeyA rest key

/-- Dict assignment: replace in place if the key is present, else append. -/
def setKeyA {α : Type} : List (String × α) → String → α → List (String × α)
  | [], key, v => [(key, v)]
  | (k, w) :: rest, key, v =>
    if k = key then (k, v) :: rest else (k, w) :: setKeyA rest key v

/-- No key occurs twice. -/
def nodupKeysA {α : Type} : List (String × α) → Bool
  | [] => true
  | (k, _) :: rest => !(lookupA rest k).isSome && nodupKeysA rest

/-- The key sets of two dicts are disjoint. -/
def disjointKeysA {α β : Type} (l : List (String × α)) (r : List (String × β)) : Bool :=
  l.all (fun p => !(lookupA r p.1).isSome)

mutual
/-- A `torch.nn.Module` as consumed by `api.py` (spec section 3, "Module
Tree"): the `_parameters` dict (values may be Python `None`), the plain
instance `__dict__` attributes, the registered forward hooks in
registration order, and the `_modules` dict of named children. -/
inductive Module where
  | mk : List (String × Option Tensor) → List (String × PyValue) → List Hook →
      ModuleList → Module

/-- The `_modules` dict: named children in declaration order. -/
inductive ModuleList where
  | nil : ModuleList
  | cons : String → Module → ModuleList → ModuleList
end

def Module.params : Module → List (String × Option Tensor)
  | .mk ps _ _ _ => ps

def Module.attrs : Module → List (String × PyValue)
  | .mk _ a _ _ => a

def Module.hooks : Module → List Hook
  | .mk _ _ h _ => h

def Module.children : Module → ModuleList
  | .mk _ _ _ c => c

/-- Lookup in the `_modules` dict. -/
def ModuleList.lookupM : ModuleList → String → Option Module
  | .nil, _ => none
  | .cons name m rest, key => if name = key then some m else lookupM rest key

/-- Modelled from the spec (host object model): attribute read on a
module. Normal lookup hits the instance `__dict__` first; on miss,
`nn.Module.__getattr__` consults `_parameters` (a `None` parameter reads
back as Python `None`) and then `_modules` (a child module is an
attribute value of non-tensor kind). -/
def moduleGetAttr (m : Module) (key : String) : Option PyValue :=
  match lookupA m.attrs key with
  | some v => some v
  | none =>
    match lookupA m.params key with
    | some (some t) => some (.tensor t)
    | some none => some .pynone
    | none =>
      match m.children.lookupM key with
      | some _ => some (.other "Module")
      | none => none

/-- Remove a child from the `_modules` dict. -/
def ModuleList.eraseM : ModuleList → String → ModuleList
  | .nil, _ => .nil
  | .cons name c rest, key =>
    if name = key then rest else .cons name c (eraseM rest key)

/-- Modelled from the spec (host object model): `delattr` on a module.
`nn.Module.__delattr__` removes from `_parameters` first, else from
`_modules`, else from the instance `__dict__`. -/
def moduleDelAttr (m : Module) (key : String) : Module :=
  if (lookupA m.params key).isSome then
    .mk (eraseKeyA m.params key) m.attrs m.hooks m.children
  else if (m.children.lookupM key).isSome then
    .mk m.params m.attrs m.hooks (m.children.eraseM key)
  else
    .mk m.params (eraseKeyA m.attrs key) m.hooks m.children

/-- Modelled from the spec (host object model): `setattr` of a value that
is neither a parameter nor a child module, on a name currently absent
from `_parameters` and `_modules` — it lands in the instance `__dict__`.
This is exactly the situation `shard_parameter` arranges by deleting the
attribute first. -/
def moduleSetPlainAttr (m : Module) (key : String) (v : PyValue) : Module :=
  .mk m.params (setKeyA m.attrs key v) m.hooks m.children

/-- `module.register_forward_hook`: hooks accumulate in registration
order. -/
def registerForwardHook (m : Module) (h : Hook) : Module :=
  .mk m.params m.attrs (m.hooks ++ [h]) m.children

/-- The validation loop of `_shard_tensor` (api.py lines 59-67): walk the
gathered list with its enumeration index; at each entry compare the peer
source rank, then the peer spec, against the local pair, raising on the
first mismatch. -/
def validateGathered (currentRank src_rank : Nat) (sharding_spec : ShardingSpec)
    (idx : Nat) : List (Nat × ShardingSpec) → Except ApiError Unit
  | [] => .ok ()
  | entry :: rest =>
    if src_rank ≠ entry.1 then
      .error (.inconsistentSrcRank currentRank src_rank idx entry.1)
    else if sharding_spec ≠ entry.2 then
      .error (.inconsistentSpec currentRank sharding_spec idx entry.2)
    else
      validateGathered currentRank src_rank sharding_spec (idx + 1) rest

/-- `_shard_tensor` (api.py lines 19-71): reject non-contiguous input,
all-gather every process's `(src_rank, sharding_spec)` pair, validate the
gathered list entry by entry, then and only then call the specification's
own `shard`. -/
def shardTensor (env : ShardEnv) (tensor : Tensor) (sharding_spec : ShardingSpec)
    (src_rank : Nat) (process_group : Option ProcessGroup) :
    Except ApiError ShardedValue :=
  if ¬ tensor.contiguous then .error (.invalidInput "input tensor")
  else
    let gathered := env.allGather process_group src_rank sharding_spec
    match validateGathered (env.rankOf process_group) src_rank sharding_spec 0 gathered with
    | .error e => .error e
    | .ok _ => env.shardOp sharding_spec tensor src_rank process_group

/-- `shard_parameter` (api.py lines 73-128), in state-passing form: the
first component is the module state when the call returns or raises (the
Python code mutates the module in place only in the final two statements),
the second is the raised error, if any. Check order is that of the source:
`hasattr`, then `isinstance(..., Tensor)`, then contiguity, then
`_shard_tensor`, then delete-and-set. -/
def shard_parameter (env : ShardEnv) (m : Module) (param_name : String)
    (sharding_spec : ShardingSpec) (src_rank : Nat)
    (process_group : Option ProcessGroup) : Module × Option ApiError :=
  match moduleGetAttr m param_name with
  | none => (m, some (.notFound param_name))
  | some v =>
    match v with
    | .tensor t =>
      if ¬ t.contiguous then (m, some (.invalidInput param_name))
      else
        match shardTensor env t sharding_spec src_rank process_group with
        | .error e => (m, some e)
        | .ok st =>
          (moduleSetPlainAttr (moduleDelAttr m param_name) param_name (.sharded st), none)
    | w => (m, some (.typeMismatch param_name w.tyNameOf))

/- Process-group scoping context (api.py lines 147-175). The global
`_CURRENT_PROCESS_GROUP` becomes an explicit state value. -/

/-- `load_with_process_group` (api.py lines 150-164) run over a body:
given the current global state, either raise the reentrancy error before
touching the state, or set the state for the body's duration and clear it
on every exit path (the `try`/`finally`). Returns the global state after
the scope and the body's outcome. -/
def load_with_process_group {β : Type}
    (state : Option ProcessGroup) (process_group : ProcessGroup)
    (body : Option ProcessGroup → Except ApiError β) :
    Option ProcessGroup × Except ApiError β :=
  match state with
  | some _ => (state, .error .reentrantLoad)
  | none => (none, body (some process_group))

/-- `_get_current_process_group` (api.py lines 166-175): the active
override if set, else the ambient default group. -/
def getCurrentProcessGroup (state : Option ProcessGroup)
    (defaultGroup : ProcessGroup) : ProcessGroup :=
  match state with
  | none => defaultGroup
  | some pg => pg

/-- `_reshard_output` (api.py lines 177-197): register the reshard hook. -/
def reshardOutput (m : Module) (resharding_spec : ShardingSpec) : Module :=
  registerForwardHook m (.reshard resharding_spec)

/-- `_collect_local_shard` (api.py lines 199-228): register the collapse
hook. -/
def collectLocalShard (m : Module) : Module :=
  registerForwardHook m .collectLocalShard

/-- The body of one registered forward hook applied to an output value.
`none` is a hook that returns Python `None` (the host then keeps the
previous output). The reshard hook (api.py lines 192-195) returns the
resharded value for sharded/partial outputs and the output itself
otherwise; the collapse hook (api.py lines 216-226) returns the local
tensor — squeezed along the chunk dimension when its extent there is 1 —
for sharded outputs, and `None` otherwise. -/
def runHook (env : ShardEnv) (h : Hook) (output : TValue) : Option TValue :=
  match h with
  | .reshard rspec =>
    match output with
    | .sharded sv => some (env.reshardS sv rspec)
    | .partialT p => some (env.reshardP p rspec)
    | o => some o
  | .collectLocalShard =>
    match output with
    | .sharded sv =>
      let lt := sv.local_tensor
      let lt2 :=
        match sv.sharding_spec with
        | .chunk d _ => if lt.size d = 1 then lt.squeeze d else lt
        | _ => lt
      some (.dense lt2)
    | _ => none

/-- Modelled from the spec (host hook-chaining): forward hooks run in
registration order; a hook returning a value replaces the output, a hook
returning `None` leaves it. -/
def runHooks (env : ShardEnv) (hs : List Hook) (output : TValue) : TValue :=
  hs.foldl (fun o h => (runHook env h o).getD o) output

/-- Modelled from the spec (spec section 3, "Sharding Plan"; the
`ShardingPlan` dataclass lives outside this file): a parameter-name →
spec mapping, an optional module-path → reshard-spec mapping, and an
optional list of module paths whose output collapses to local form. -/
structure ShardingPlan where
  plan : List (String × ShardingSpec)
  output_plan : Option (List (String × ShardingSpec))
  return_local_tensor : Option (List String)

/-- `prefix + ('.' if prefix else '') + name` (api.py line 268 and the
path building of `named_modules`). -/
def extendPfx (pfx name : String) : String :=
  if pfx = "" then name else pfx ++ "." ++ name

/-- The per-node parameter loop of `shard_module` (api.py lines 263-279):
walk the snapshot of the node's parameter keys with the node-local `memo`
of already-seen parameter object identities; skip absent/seen values,
record fresh ones, and shard those whose qualified name is in the plan.
An error from `shard_parameter` aborts the whole run with the module
state at that point. -/
def shardNodeParams (env : ShardEnv) (plan : ShardingPlan) (src_rank : Nat)
    (process_group : Option ProcessGroup) (pfx : String) :
    List String → List Nat → Module → Module × Option ApiError
  | [], _, m => (m, none)
  | k :: rest, memo, m =>
    match lookupA m.params k with
    | none => shardNodeParams env plan src_rank process_group pfx rest memo m
    | some v =>
      match v with
      | none => shardNodeParams env plan src_rank process_group pfx rest memo m
      | some t =>
        if t.objId ∈ memo then
          shardNodeParams env plan src_rank process_group pfx rest memo m
        else
          let memo2 := t.objId :: memo
          let name := extendPfx pfx k
          match lookupA plan.plan name with
          | some s =>
            match shard_parameter env m k s src_rank process_group with
            | (m2, none) => shardNodeParams env plan src_rank process_group pfx rest memo2 m2
            | (m2, some e) => (m2, some e)
          | none => shardNodeParams env plan src_rank process_group pfx rest memo2 m

/-- Install the output hooks for one visited node (api.py lines 281-287):
the reshard hook when the node's path is in `output_plan`, then the
collapse hook when it is in `return_local_tensor`. -/
def installHooks (plan : ShardingPlan) (pfx : String) (m : Module) : Module :=
  let m1 :=
    match plan.output_plan with
    | some op =>
      match lookupA op pfx with
      | some rs => reshardOutput m rs
      | none => m
    | none => m
  match plan.return_local_tensor with
  | some rl => if pfx ∈ rl then collectLocalShard m1 else m1
  | none => m1

mutual
/-- `shard_module` (api.py lines 230-287) at one node of the pre-order
traversal of `named_modules`: process this node's parameters with a fresh
`memo`, install this node's output hooks, then visit the children in
declaration order. Parameter processing and hook installation never touch
`_modules`, so the children are traversed from the pre-visit child list;
an error aborts the traversal, leaving later positions untouched. -/
def shardModuleAux (env : ShardEnv) (plan : ShardingPlan) (src_rank : Nat)
    (process_group : Option ProcessGroup) : String → Module → Module × Option ApiError
  | pfx, .mk ps attrs hooks cs =>
    match shardNodeParams env plan src_rank process_group pfx (ps.map Prod.fst) []
        (.mk ps attrs hooks cs) with
    | (m1, some e) => (m1, some e)
    | (m1, none) =>
      let m2 := installHooks plan pfx m1
      match shardChildren env plan src_rank process_group pfx cs with
      | (cs2, cerr) => (.mk m2.params m2.attrs m2.hooks cs2, cerr)

/-- Visit the children of a node: each child under the extended path; an
error in one child keeps already-visited siblings' results and leaves the
rest untouched. -/
def shardChildren (env : ShardEnv) (plan : ShardingPlan) (src_rank : Nat)
    (process_group : Option ProcessGroup) : String → ModuleList → ModuleList × Option ApiError
  | _, .nil => (.nil, none)
  | pfx, .cons name c rest =>
    match shardModuleAux env plan src_rank process_group (extendPfx pfx name) c with
    | (c2, some e) => (.cons name c2 rest, some e)
    | (c2, none) =>
      match shardChildren env plan src_rank process_group pfx rest with
      | (rest2, cerr) => (.cons name c2 rest2, cerr)
end

/-- `shard_module(module, plan, src_rank, process_group)`: the traversal
started at the root with the empty path. -/
def shard_module (env : ShardEnv) (m : Module) (plan : ShardingPlan)
    (src_rank : Nat) (process_group : Option ProcessGroup) : Module × Option ApiError :=
  shardModuleAux env plan src_rank process_group "" m

/-- The parameter-dict entry reached by a child path and a parameter key
(position in the tree, independent of the dotted-string naming). -/
def Module.paramAt : Module → List String → String → Option (Option Tensor)
  | m, [], k => lookupA m.params k
  | m, c :: p, k =>
    match m.children.lookupM c with
    | some mc => mc.paramAt p k
    | none => none

/-- The plain-attribute entry reached by a child path and a key. -/
def Module.attrAt : Module → List String → String → Option PyValue
  | m, [], k => lookupA m.attrs k
  | m, c :: p, k =>
    match m.children.lookupM c with
    | some mc => mc.attrAt p k
    | none => none

/-- The sub-module reached by a child path (the node itself at `[]`). -/
def Module.subAt : Module → List String → Option Module
  | m, [] => some m
  | m, c :: p =>
    match m.children.lookupM c with
    | some mc => mc.subAt p
    | none => none

/-- The hooks `shard_module` appends at a visited node with the given
path: the reshard hook when the path is in `output_plan`, then the
collapse hook when it is in `return_local_tensor`. -/
def hookSuffix (plan : ShardingPlan) (pfx : String) : List Hook :=
  (match plan.output_plan with
   | some op =>
     match lookupA op pfx with
     | some rs => [Hook.reshard rs]
     | none => []
   | none => []) ++
  (match plan.return_local_tensor with
   | some rl => if pfx ∈ rl then [Hook.collectLocalShard] else []
   | none => [])

/-- All parameter object identities present at one node. -/
def paramIds (ps : List (String × Option Tensor)) : List Nat :=
  ps.filterMap (fun p => p.2.map Tensor.objId)

/-- Duplicate-freedom of a list of naturals, as a boolean. -/
def nodupNat : List Nat → Bool
  | [] => true
  | n :: rest => !(rest.contains n) && nodupNat rest

mutual
/-- Well-formedness of a module tree, node by node: parameter, attribute
and child keys are duplicate-free; parameter names collide with neither
plain attributes nor children (the `nn.Module` registration invariant);
no two parameter slots of the same node alias one object; and every
parameter tensor is contiguous. -/
def Module.wf : Module → Bool
  | .mk ps attrs _ cs =>
    nodupKeysA ps && nodupKeysA attrs && disjointKeysA ps attrs &&
    nodupNat (paramIds ps) && ps.all (fun p => p.2.all Tensor.contiguous) &&
    ModuleList.wfL cs

/-- Well-formedness of a child list: duplicate-free names, every child
well-formed. -/
def ModuleList.wfL : ModuleList → Bool
  | .nil => true
  | .cons name c rest => !(ModuleList.lookupM rest name).isSome && c.wf && rest.wfL
end

/-- Modelled from the spec: a concrete environment for a one-process
group in agreement — the all-gather echoes this process's own pair, the
spec's `shard` always succeeds and produces a `ShardedValue` recording
its originating specification (the shard's data content is opaque to this
subsystem; the source tensor stands for it), and reshard retags the
value's specification. -/
def specEnv : ShardEnv where
  allGather := fun _ r s => [(r, s)]
  rankOf := fun _ => 0
  shardOp := fun s t _ _ => .ok ⟨s, t⟩
  reshardS := fun sv rs => .sharded ⟨rs, sv.local_tensor⟩
  reshardP := fun p _ => .partialT p

/-- The traversal path string reached from `pfx` by descending the given
child names. -/
def pathPfx (pfx : String) : List String → String
  | [] => pfx
  | c :: p => pathPfx (extendPfx pfx c) p

/-- What a run of the plan-application engine does at one parameter
position (child path plus parameter key), for well-behaved trees: a
parameter whose fully-qualified name is in the plan is removed from the
parameter table and reinstalled as the sharded value produced by the
spec's `shard`; every other position is untouched. -/
def ClaimAt (env : ShardEnv) (plan : ShardingPlan) (src_rank : Nat)
    (pg : Option ProcessGroup) (m res : Module) (pfx : String)
    (path : List String) (k : String) : Prop :=
  match m.paramAt path k, lookupA plan.plan (extendPfx (pathPfx pfx path) k) with
  | some (some t), some s =>
      res.paramAt path k = none ∧
      ∃ sv, res.attrAt path k = some (.sharded sv) ∧ sv.sharding_spec = s ∧
        env.shardOp s t src_rank pg = .ok sv
  | _, _ =>
      res.paramAt path k = m.paramAt path k ∧ res.attrAt path k = m.attrAt path k

/- ------------------------------------------------------------------ -/
/- Theorems. First, facts about the dict primitives.                  -/
/- ------------------------------------------------------------------ -/

@[simp]
theorem Module.params_mk (ps : List (String × Option Tensor))
    (as : List (String × PyValue)) (hs : List Hook) (cs : ModuleList) :
    (Module.mk ps as hs cs).params = ps := rfl

@[simp]
theorem Module.attrs_mk (ps : List (String × Option Tensor))
    (as : List (String × PyValue)) (hs : List Hook) (cs : ModuleList) :
    (Module.mk ps as hs cs).attrs = as := rfl

@[simp]
theorem Module.hooks_mk (ps : List (String × Option Tensor))
    (as : List (String × PyValue)) (hs : List Hook) (cs : ModuleList) :
    (Module.mk ps as hs cs).hooks = hs := rfl

@[simp]
theorem Module.children_mk (ps : List (String × Option Tensor))
    (as : List (String × PyValue)) (hs : List Hook) (cs : ModuleList) :
    (Module.mk ps as hs cs).children = cs := rfl

theorem lookupA_cons_self {α : Type} (k : String) (v : α) (tl : List (String × α)) :
    lookupA ((k, v) :: tl) k = some v := by
  simp [lookupA]

theorem lookupA_cons_ne {α : Type} (k0 k : String) (v : α) (tl : List (String × α))
    (h : ¬ k0 = k) : lookupA ((k0, v) :: tl) k = lookupA tl k := by
  simp [lookupA, h]

theorem lookupA_setKeyA_self {α : Type} (l : List (String × α)) (k : String) (v : α) :
    lookupA (setKeyA l k v) k = some v := by
  induction l with
  | nil => simp [setKeyA, lookupA]
  | cons hd tl ih =>
    by_cases h : hd.1 = k <;> simp [setKeyA, lookupA, h, ih]

theorem lookupA_setKeyA_ne {α : Type} (l : List (String × α)) (k k2 : String) (v : α)
    (h : k2 ≠ k) : lookupA (setKeyA l k v) k2 = lookupA l k2 := by
  induction l with
  | nil =>
    simp only [setKeyA, lookupA]
    rw [if_neg (fun h2 => h h2.symm)]
  | cons hd tl ih =>
    cases hd with
    | mk k0 w =>
      by_cases hh : k0 = k
      · subst hh
        simp only [setKeyA, if_pos rfl, lookupA]
        rw [if_neg (fun h2 => h h2.symm), if_neg (fun h2 => h h2.symm)]
      · simp only [setKeyA, if_neg hh, lookupA]
        by_cases hk : k0 = k2
        · rw [if_pos hk, if_pos hk]
        · rw [if_neg hk, if_neg hk]
          exact ih

theorem lookupA_eraseKeyA_ne {α : Type} (l : List (String × α)) (k k2 : String)
    (h : k2 ≠ k) : lookupA (eraseKeyA l k) k2 = lookupA l k2 := by
  induction l with
  | nil => simp [eraseKeyA]
  | cons hd tl ih =>
    cases hd with
    | mk k0 w =>
      by_cases hh : k0 = k
      · subst hh
        rw [show eraseKeyA ((k0, w) :: tl) k0 = tl from by simp [eraseKeyA]]
        rw [lookupA_cons_ne k0 k2 w tl (fun h2 => h h2.symm)]
      · rw [show eraseKeyA ((k0, w) :: tl) k = (k0, w) :: eraseKeyA tl k from by
          simp [eraseKeyA, hh]]
        by_cases hk : k0 = k2
        · subst hk
          rw [lookupA_cons_self, lookupA_cons_self]
        · rw [lookupA_cons_ne k0 k2 w _ hk, lookupA_cons_ne k0 k2 w tl hk]
          exact ih

theorem lookupA_eraseKeyA_self {α : Type} (l : List (String × α)) (k : String)
    (hnd : nodupKeysA l = true) : lookupA (eraseKeyA l k) k = none := by
  induction l with
  | nil => simp [eraseKeyA, lookupA]
  | cons hd tl ih =>
    simp only [nodupKeysA, Bool.and_eq_true, Bool.not_eq_true'] at hnd
    by_cases hh : hd.1 = k
    · subst hh
      simp only [eraseKeyA, if_pos rfl]
      cases hl : lookupA tl hd.1 with
      | none => exact hl
      | some v => simp [hl] at hnd
    · simp [eraseKeyA, hh, lookupA, ih hnd.2]

theorem nodupKeysA_eraseKeyA {α : Type} (l : List (String × α)) (k : String)
    (hnd : nodupKeysA l = true) : nodupKeysA (eraseKeyA l k) = true := by
  induction l with
  | nil => simp [eraseKeyA, nodupKeysA]
  | cons hd tl ih =>
    simp only [nodupKeysA, Bool.and_eq_true, Bool.not_eq_true'] at hnd
    by_cases hh : hd.1 = k
    · simpa [eraseKeyA, hh] using hnd.2
    · simp only [eraseKeyA, if_neg hh, nodupKeysA, Bool.and_eq_true, Bool.not_eq_true']
      refine ⟨?_, ih hnd.2⟩
      rw [lookupA_eraseKeyA_ne tl k hd.1 hh]
      exact hnd.1

theorem lookupA_isSome_of_mem {α : Type} (l : List (String × α)) (k : String) (v : α)
    (h : (k, v) ∈ l) : (lookupA l k).isSome = true := by
  induction l with
  | nil => simp at h
  | cons hd tl ih =>
    cases hd with
    | mk k0 w =>
      rcases List.mem_cons.mp h with h1 | h1
      · cases h1
        simp [lookupA]
      · by_cases hh : k0 = k <;> simp [lookupA, hh, ih h1]

theorem lookupA_mem {α : Type} (l : List (String × α)) (k : String) (v : α)
    (h : lookupA l k = some v) : (k, v) ∈ l := by
  induction l with
  | nil => simp [lookupA] at h
  | cons hd tl ih =>
    cases hd with
    | mk k0 w =>
      by_cases hh : k0 = k
      · simp only [lookupA, if_pos hh] at h
        injection h with h2
        subst hh
        subst h2
        exact List.mem_cons_self _ _
      · simp only [lookupA, if_neg hh] at h
        exact List.mem_cons_of_mem _ (ih h)

theorem lookupA_isSome_of_mem_keys {α : Type} (l : List (String × α)) (k : String)
    (h : k ∈ l.map Prod.fst) : (lookupA l k).isSome = true := by
  rcases List.mem_map.mp h with ⟨⟨k2, v⟩, hm, he⟩
  exact he ▸ lookupA_isSome_of_mem l k2 v hm

theorem nodup_keys_of_nodupKeysA {α : Type} (l : List (String × α))
    (h : nodupKeysA l = true) : (l.map Prod.fst).Nodup := by
  induction l with
  | nil => simp
  | cons hd tl ih =>
    simp only [nodupKeysA, Bool.and_eq_true, Bool.not_eq_true'] at h
    refine List.nodup_cons.mpr ⟨?_, ih h.2⟩
    intro hmem
    have := lookupA_isSome_of_mem_keys tl hd.1 hmem
    rw [h.1] at this
    exact Bool.false_ne_true this

theorem lookupA_none_of_disjoint {α β : Type} (l : List (String × α))
    (r : List (String × β)) (k : String) (hd : disjointKeysA l r = true)
    (h : k ∈ l.map Prod.fst) : lookupA r k = none := by
  rcases List.mem_map.mp h with ⟨⟨k2, v⟩, hm, he⟩
  subst he
  have h2 := List.all_eq_true.mp hd _ hm
  simp only [Bool.not_eq_true'] at h2
  exact Option.not_isSome_iff_eq_none.mp (fun hs => by
    rw [h2] at hs
    exact Bool.false_ne_true hs)

theorem objId_mem_paramIds (ps : List (String × Option Tensor)) (k : String)
    (t : Tensor) (h : lookupA ps k = some (some t)) : t.objId ∈ paramIds ps := by
  induction ps with
  | nil => simp [lookupA] at h
  | cons hd tl ih =>
    cases hd with
    | mk k0 v0 =>
      by_cases hh : k0 = k
      · simp only [lookupA, if_pos hh] at h
        injection h with h2
        subst h2
        simp [paramIds]
      · simp only [lookupA, if_neg hh] at h
        cases v0 with
        | none => simpa [paramIds] using ih h
        | some t0 =>
          simp only [paramIds, List.filterMap_cons, Option.map_some]
          exact List.mem_cons_of_mem _ (by simpa [paramIds] using ih h)

theorem pairwise_ids_of_nodupNat (ps : List (String × Option Tensor))
    (h : nodupNat (paramIds ps) = true) :
    ∀ k1 k2 t1 t2, k1 ≠ k2 → lookupA ps k1 = some (some t1) →
      lookupA ps k2 = some (some t2) → t1.objId ≠ t2.objId := by
  induction ps with
  | nil => intro k1 k2 t1 t2 _ h1; simp [lookupA] at h1
  | cons hd tl ih =>
    intro k1 k2 t1 t2 hne h1 h2
    cases hd with
    | mk k0 v0 =>
      have hsub : nodupNat (paramIds tl) = true := by
        cases v0 with
        | none => simpa [paramIds] using h
        | some t0 =>
          simp only [paramIds, List.filterMap_cons, Option.map_some, nodupNat,
            Bool.and_eq_true] at h ⊢
          exact h.2
      by_cases e1 : k0 = k1
      · subst e1
        rw [lookupA_cons_self] at h1
        injection h1 with h1
        subst h1
        rw [lookupA_cons_ne _ _ _ _ hne] at h2
        have hmem := objId_mem_paramIds tl k2 t2 h2
        simp only [paramIds, List.filterMap_cons, Option.map_some, nodupNat,
          Bool.and_eq_true, Bool.not_eq_true'] at h
        intro he
        have hx : t1.objId ∈ paramIds tl := he ▸ hmem
        have hc : (paramIds tl).contains t1.objId = true :=
          List.contains_iff_exists_mem_beq.mpr ⟨t1.objId, hx, by simp⟩
        simp only [paramIds] at hc
        rw [h.1] at hc
        exact Bool.false_ne_true hc
      · by_cases e2 : k0 = k2
        · subst e2
          rw [lookupA_cons_self] at h2
          injection h2 with h2
          subst h2
          rw [lookupA_cons_ne _ _ _ _ e1] at h1
          have hmem := objId_mem_paramIds tl k1 t1 h1
          simp only [paramIds, List.filterMap_cons, Option.map_some, nodupNat,
            Bool.and_eq_true, Bool.not_eq_true'] at h
          intro he
          have hx : t2.objId ∈ paramIds tl := he ▸ hmem
          have hc : (paramIds tl).contains t2.objId = true :=
            List.contains_iff_exists_mem_beq.mpr ⟨t2.objId, hx, by simp⟩
          simp only [paramIds] at hc
          rw [h.1] at hc
          exact Bool.false_ne_true hc
        · rw [lookupA_cons_ne _ _ _ _ e1] at h1
          rw [lookupA_cons_ne _ _ _ _ e2] at h2
          exact ih hsub k1 k2 t1 t2 hne h1 h2

/- Facts about the cross-rank validation loop. -/

theorem validateGathered_ok_iff (cur r : Nat) (s : ShardingSpec) :
    ∀ (l : List (Nat × ShardingSpec)) (idx : Nat),
    validateGathered cur r s idx l = .ok () ↔ ∀ p ∈ l, p = (r, s) := by
  intro l
  induction l with
  | nil => intro idx; simp [validateGathered]
  | cons hd tl ih =>
    intro idx
    simp only [validateGathered]
    by_cases h1 : r ≠ hd.1
    · rw [if_pos h1]
      constructor
      · intro h; exact absurd h (by simp)
      · intro hall
        exact absurd (congrArg Prod.fst (hall hd (List.mem_cons_self hd tl))).symm h1
    · rw [if_neg h1]
      push_neg at h1
      by_cases h2 : s ≠ hd.2
      · rw [if_pos h2]
        constructor
        · intro h; exact absurd h (by simp)
        · intro hall
          exact absurd (congrArg Prod.snd (hall hd (List.mem_cons_self hd tl))).symm h2
      · rw [if_neg h2]
        push_neg at h2
        rw [ih (idx + 1)]
        simp only [List.forall_mem_cons]
        constructor
        · intro h; exact ⟨Prod.ext h1.symm h2.symm, h⟩
        · intro h; exact h.2

theorem validateGathered_error_shape (cur r : Nat) (s : ShardingSpec) :
    ∀ (l : List (Nat × ShardingSpec)) (idx : Nat) (e : ApiError),
    validateGathered cur r s idx l = .error e →
    ∃ j p, l[j]? = some p ∧
      ((p.1 ≠ r ∧ e = .inconsistentSrcRank cur r (idx + j) p.1) ∨
       (p.1 = r ∧ p.2 ≠ s ∧ e = .inconsistentSpec cur s (idx + j) p.2)) := by
  intro l
  induction l with
  | nil => intro idx e h; simp [validateGathered] at h
  | cons hd tl ih =>
    intro idx e h
    simp only [validateGathered] at h
    by_cases h1 : r ≠ hd.1
    · rw [if_pos h1] at h
      injection h with he
      exact ⟨0, hd, by simp, Or.inl ⟨fun hx => h1 hx.symm, by simpa using he.symm⟩⟩
    · rw [if_neg h1] at h
      push_neg at h1
      by_cases h2 : s ≠ hd.2
      · rw [if_pos h2] at h
        injection h with he
        exact ⟨0, hd, by simp,
          Or.inr ⟨h1.symm, fun hx => h2 hx.symm, by simpa using he.symm⟩⟩
      · rw [if_neg h2] at h
        obtain ⟨j, p, hj, hcase⟩ := ih (idx + 1) e h
        refine ⟨j + 1, p, by simpa using hj, ?_⟩
        rcases hcase with ⟨ha, hb⟩ | ⟨ha, hb, hc⟩
        · refine Or.inl ⟨ha, ?_⟩
          rw [hb]
          congr 1
          omega
        · refine Or.inr ⟨ha, hb, ?_⟩
          rw [hc]
          congr 1
          omega

/-- Claim C2: for a contiguous tensor, the tensor-sharding operation
succeeds — and then it is exactly the specification's own `shard` — iff
every gathered `(src_rank, spec)` pair is identical to the local one; on
any mismatch it fails with the inconsistency error naming the local rank,
the peer's gather index and both offending values, and the result does
not depend on the shard operation at all (the spec's `shard` is invoked
only after full agreement). -/
theorem shard_tensor_agreement (env : ShardEnv) (t : Tensor) (s : ShardingSpec)
    (r : Nat) (pg : Option ProcessGroup) (hc : t.contiguous = true) :
    ((∀ p ∈ env.allGather pg r s, p = (r, s)) →
      shardTensor env t s r pg = env.shardOp s t r pg) ∧
    ((¬ ∀ p ∈ env.allGather pg r s, p = (r, s)) →
      (∃ j p, (env.allGather pg r s)[j]? = some p ∧
        ((p.1 ≠ r ∧ shardTensor env t s r pg =
            .error (.inconsistentSrcRank (env.rankOf pg) r j p.1)) ∨
         (p.1 = r ∧ p.2 ≠ s ∧ shardTensor env t s r pg =
            .error (.inconsistentSpec (env.rankOf pg) s j p.2)))) ∧
      (∀ env2 : ShardEnv, env2.allGather = env.allGather → env2.rankOf = env.rankOf →
        shardTensor env2 t s r pg = shardTensor env t s r pg)) := by
  constructor
  · intro hall
    have hok : validateGathered (env.rankOf pg) r s 0 (env.allGather pg r s) = .ok () :=
      (validateGathered_ok_iff _ _ _ _ _).mpr hall
    simp [shardTensor, hc, hok]
  · intro hne
    rcases hv : validateGathered (env.rankOf pg) r s 0 (env.allGather pg r s) with e | u
    · obtain ⟨j, p, hj, hcase⟩ := validateGathered_error_shape _ _ _ _ _ _ hv
      constructor
      · refine ⟨j, p, hj, ?_⟩
        rcases hcase with ⟨ha, hb⟩ | ⟨ha, hb, hc2⟩
        · refine Or.inl ⟨ha, ?_⟩
          simp only [Nat.zero_add] at hb
          simp [shardTensor, hc, hv, hb]
        · refine Or.inr ⟨ha, hb, ?_⟩
          simp only [Nat.zero_add] at hc2
          simp [shardTensor, hc, hv, hc2]
      · intro env2 hg hr
        have hv2 : validateGathered (env2.rankOf pg) r s 0 (env2.allGather pg r s) = .error e := by
          rw [hg, hr]
          exact hv
        simp [shardTensor, hc, hv, hv2]
    · cases u
      exact absurd ((validateGathered_ok_iff _ _ _ _ _).mp hv) hne

theorem shard_tensor_agreement_witness :
    shardTensor specEnv ⟨0, [4], true⟩ (.chunk 0 [0]) 0 none =
      specEnv.shardOp (.chunk 0 [0]) ⟨0, [4], true⟩ 0 none ∧
    shardTensor { specEnv with allGather := fun _ _ _ => [(1, .enumerable 7)] }
      ⟨0, [4], true⟩ (.chunk 0 [0]) 0 none =
      .error (.inconsistentSrcRank 0 0 0 1) := by
  constructor
  · exact (shard_tensor_agreement specEnv ⟨0, [4], true⟩ (.chunk 0 [0]) 0 none rfl).1
      (by intro p hp; simpa [specEnv] using hp)
  · have h := (shard_tensor_agreement
      { specEnv with allGather := fun _ _ _ => [(1, .enumerable 7)] }
      ⟨0, [4], true⟩ (.chunk 0 [0]) 0 none rfl).2 (by simp [specEnv])
    obtain ⟨⟨j, p, hj, hcase⟩, -⟩ := h
    have hj0 : j = 0 ∧ p = (1, .enumerable 7) := by
      cases j with
      | zero => simpa using hj.symm
      | succ n => simp [specEnv] at hj
    obtain ⟨rfl, rfl⟩ := hj0
    rcases hcase with ⟨-, hb⟩ | ⟨ha, -, -⟩
    · exact hb
    · exact absurd ha (by decide)

/-- Claim C3: the three precondition checks of `shard_parameter` fire in
source order — missing attribute, then non-tensor attribute (reporting
the actual kind), then non-contiguous tensor — and each failure returns
before any effect: the module state is unchanged and the result does not
involve the environment. -/
theorem shard_parameter_check_order (env : ShardEnv) (m : Module) (k : String)
    (s : ShardingSpec) (r : Nat) (pg : Option ProcessGroup) :
    (moduleGetAttr m k = none →
      shard_parameter env m k s r pg = (m, some (.notFound k))) ∧
    (∀ v, moduleGetAttr m k = some v → (∀ t, v ≠ .tensor t) →
      shard_parameter env m k s r pg = (m, some (.typeMismatch k v.tyNameOf))) ∧
    (∀ t, moduleGetAttr m k = some (.tensor t) → t.contiguous = false →
      shard_parameter env m k s r pg = (m, some (.invalidInput k))) := by
  refine ⟨?_, ?_, ?_⟩
  · intro h
    simp [shard_parameter, h]
  · intro v hv hnt
    cases v with
    | tensor t => exact absurd rfl (hnt t)
    | sharded sv => simp [shard_parameter, hv]
    | pynone => simp [shard_parameter, hv]
    | other s2 => simp [shard_parameter, hv]
  · intro t ht hcf
    simp [shard_parameter, ht, hcf]

theorem shard_parameter_check_order_witness :
    shard_parameter specEnv (.mk [] [] [] .nil) "w" (.chunk 0 [0]) 0 none =
      (.mk [] [] [] .nil, some (.notFound "w")) ∧
    shard_parameter specEnv (.mk [("w", none)] [] [] .nil) "w" (.chunk 0 [0]) 0 none =
      (.mk [("w", none)] [] [] .nil, some (.typeMismatch "w" "NoneType")) ∧
    shard_parameter specEnv (.mk [("w", some ⟨0, [2], false⟩)] [] [] .nil) "w"
        (.chunk 0 [0]) 0 none =
      (.mk [("w", some ⟨0, [2], false⟩)] [] [] .nil, some (.invalidInput "w")) := by
  refine ⟨?_, ?_, ?_⟩
  · exact (shard_parameter_check_order specEnv (.mk [] [] [] .nil) "w"
      (.chunk 0 [0]) 0 none).1 rfl
  · exact (shard_parameter_check_order specEnv (.mk [("w", none)] [] [] .nil) "w"
      (.chunk 0 [0]) 0 none).2.1 .pynone rfl (fun t h => PyValue.noConfusion h)
  · exact (shard_parameter_check_order specEnv
      (.mk [("w", some ⟨0, [2], false⟩)] [] [] .nil) "w"
      (.chunk 0 [0]) 0 none).2.2 ⟨0, [2], false⟩ rfl rfl

/-- Claim C9: every failing execution of `shard_parameter` — precondition
violation, agreement-check failure, or failure inside the specification's
own shard operation — leaves the module exactly as it was: the
detach-then-install replacement runs only after the sharded value has
been obtained. -/
theorem shard_parameter_failure_no_mutation (env : ShardEnv) (m : Module) (k : String)
    (s : ShardingSpec) (r : Nat) (pg : Option ProcessGroup) (e : ApiError)
    (h : (shard_parameter env m k s r pg).2 = some e) :
    (shard_parameter env m k s r pg).1 = m := by
  rcases hg : moduleGetAttr m k with _ | v
  · simp [shard_parameter, hg]
  · cases v with
    | tensor t =>
      by_cases hct : t.contiguous
      · rcases hst : shardTensor env t s r pg with e2 | st
        · simp [shard_parameter, hg, hct, hst]
        · exfalso
          revert h
          simp [shard_parameter, hg, hct, hst]
      · simp [shard_parameter, hg, hct]
    | sharded sv => simp [shard_parameter, hg]
    | pynone => simp [shard_parameter, hg]
    | other s2 => simp [shard_parameter, hg]

theorem shard_parameter_failure_no_mutation_witness :
    (shard_parameter { specEnv with shardOp := fun _ _ _ _ => .error (.shardOpFailed 3) }
        (.mk [("w", some ⟨0, [4], true⟩)] [] [] .nil) "w" (.chunk 0 [0]) 0 none).2 =
      some (.shardOpFailed 3) ∧
    (shard_parameter { specEnv with shardOp := fun _ _ _ _ => .error (.shardOpFailed 3) }
        (.mk [("w", some ⟨0, [4], true⟩)] [] [] .nil) "w" (.chunk 0 [0]) 0 none).1 =
      .mk [("w", some ⟨0, [4], true⟩)] [] [] .nil :=
  ⟨rfl, shard_parameter_failure_no_mutation _ _ "w" (.chunk 0 [0]) 0 none
    (.shardOpFailed 3) rfl⟩

theorem shardTensor_ok_shardOp (env : ShardEnv) (t : Tensor) (s : ShardingSpec)
    (r : Nat) (pg : Option ProcessGroup) (sv : ShardedValue)
    (h : shardTensor env t s r pg = .ok sv) : env.shardOp s t r pg = .ok sv := by
  by_cases hct : t.contiguous
  · simp only [shardTensor, hct, not_true_eq_false, if_false] at h
    rcases hv : validateGathered (env.rankOf pg) r s 0 (env.allGather pg r s) with e | u
    · rw [hv] at h
      exact absurd h (by simp)
    · rw [hv] at h
      exact h
  · simp [shardTensor, hct] at h

theorem moduleGetAttr_setPlain_self (m : Module) (k : String) (v : PyValue) :
    moduleGetAttr (moduleSetPlainAttr m k v) k = some v := by
  cases m with
  | mk ps as hs cs =>
    simp [moduleGetAttr, moduleSetPlainAttr, Module.attrs, lookupA_setKeyA_self]

/-- Shared shape fact: a successful `shard_parameter` run is exactly the
detach-then-install of the sharded value produced by the spec's shard
operation. -/
theorem shard_parameter_success_shape (env : ShardEnv) (m : Module) (k : String)
    (s : ShardingSpec) (r : Nat) (pg : Option ProcessGroup) (m2 : Module)
    (t : Tensor) (sv : ShardedValue)
    (hget : moduleGetAttr m k = some (.tensor t))
    (hso : env.shardOp s t r pg = .ok sv)
    (h : shard_parameter env m k s r pg = (m2, none)) :
    m2 = moduleSetPlainAttr (moduleDelAttr m k) k (.sharded sv) ∧
    moduleGetAttr m2 k = some (.sharded sv) := by
  by_cases hct : t.contiguous
  · rcases hst : shardTensor env t s r pg with e2 | st
    · rw [show shard_parameter env m k s r pg = (m, some e2) from by
        simp [shard_parameter, hget, hct, hst]] at h
      exact absurd (congrArg Prod.snd h) (by simp)
    · have hstv : st = sv := by
        have h2 := shardTensor_ok_shardOp env t s r pg st hst
        rw [hso] at h2
        injection h2 with h3
        exact h3.symm
      rw [show shard_parameter env m k s r pg =
          (moduleSetPlainAttr (moduleDelAttr m k) k (.sharded st), none) from by
        simp [shard_parameter, hget, hct, hst]] at h
      have hm2 : m2 = moduleSetPlainAttr (moduleDelAttr m k) k (.sharded sv) := by
        rw [← hstv]
        exact (congrArg Prod.fst h).symm
      exact ⟨hm2, hm2 ▸ moduleGetAttr_setPlain_self _ k _⟩
  · rw [show shard_parameter env m k s r pg = (m, some (.invalidInput k)) from by
      simp [shard_parameter, hget, hct]] at h
    exact absurd (congrArg Prod.snd h) (by simp)

/-- Claim C4: a successful `shard_parameter(module, w, spec)` replaces the
attribute by the two-step detach-then-install: the result state is
exactly `setattr (delattr module w) w sharded`, the attribute now reads
back as the sharded value (no longer a dense tensor), and the sharded
value's recoverable specification is the requested one. -/
theorem shard_parameter_replaces_param (env : ShardEnv) (m : Module) (k : String)
    (s : ShardingSpec) (r : Nat) (pg : Option ProcessGroup) (m2 : Module)
    (t : Tensor) (sv : ShardedValue)
    (hget : moduleGetAttr m k = some (.tensor t))
    (hso : env.shardOp s t r pg = .ok sv)
    (hrec : ∀ t2 sv2, env.shardOp s t2 r pg = .ok sv2 → sv2.sharding_spec = s)
    (h : shard_parameter env m k s r pg = (m2, none)) :
    m2 = moduleSetPlainAttr (moduleDelAttr m k) k (.sharded sv) ∧
    moduleGetAttr m2 k = some (.sharded sv) ∧
    sv.sharding_spec = s := by
  obtain ⟨hm2, hatt⟩ := shard_parameter_success_shape env m k s r pg m2 t sv hget hso h
  exact ⟨hm2, hatt, hrec t sv hso⟩

theorem shard_parameter_replaces_param_witness :
    shard_parameter specEnv (.mk [("w", some ⟨0, [4], true⟩)] [] [] .nil) "w"
        (.chunk 0 [0]) 0 none =
      (.mk [] [("w", .sharded ⟨.chunk 0 [0], ⟨0, [4], true⟩⟩)] [] .nil, none) ∧
    moduleGetAttr (.mk [] [("w", .sharded ⟨.chunk 0 [0], ⟨0, [4], true⟩⟩)] [] .nil) "w" =
      some (.sharded ⟨.chunk 0 [0], ⟨0, [4], true⟩⟩) ∧
    (⟨.chunk 0 [0], ⟨0, [4], true⟩⟩ : ShardedValue).sharding_spec = .chunk 0 [0] := by
  refine ⟨rfl, ?_, ?_⟩
  · exact (shard_parameter_replaces_param specEnv
      (.mk [("w", some ⟨0, [4], true⟩)] [] [] .nil) "w" (.chunk 0 [0]) 0 none
      (.mk [] [("w", .sharded ⟨.chunk 0 [0], ⟨0, [4], true⟩⟩)] [] .nil)
      ⟨0, [4], true⟩ ⟨.chunk 0 [0], ⟨0, [4], true⟩⟩ rfl rfl
      (fun t2 sv2 hh => by cases hh; rfl) rfl).2.1
  · exact (shard_parameter_replaces_param specEnv
      (.mk [("w", some ⟨0, [4], true⟩)] [] [] .nil) "w" (.chunk 0 [0]) 0 none
      (.mk [] [("w", .sharded ⟨.chunk 0 [0], ⟨0, [4], true⟩⟩)] [] .nil)
      ⟨0, [4], true⟩ ⟨.chunk 0 [0], ⟨0, [4], true⟩⟩ rfl rfl
      (fun t2 sv2 hh => by cases hh; rfl) rfl).2.2

/-- Claim C10: after a successful `shard_parameter`, the name is gone from
the module's owned-parameter table — the sharded value lives in the plain
attribute dict — while attribute lookup by that name yields the sharded
value. -/
theorem shard_parameter_demotes_param (env : ShardEnv) (m : Module) (k : String)
    (s : ShardingSpec) (r : Nat) (pg : Option ProcessGroup) (m2 : Module)
    (t : Tensor) (sv : ShardedValue)
    (hnd : nodupKeysA m.params = true)
    (hget : moduleGetAttr m k = some (.tensor t))
    (hso : env.shardOp s t r pg = .ok sv)
    (h : shard_parameter env m k s r pg = (m2, none)) :
    lookupA m2.params k = none ∧ ¬ k ∈ m2.params.map Prod.fst ∧
    moduleGetAttr m2 k = some (.sharded sv) := by
  obtain ⟨hm2, hatt⟩ := shard_parameter_success_shape env m k s r pg m2 t sv hget hso h
  have hp : lookupA m2.params k = none := by
    rw [hm2]
    cases m with
    | mk ps as hs cs =>
      by_cases hpk : (lookupA ps k).isSome
      · rw [show moduleDelAttr (Module.mk ps as hs cs) k =
            .mk (eraseKeyA ps k) as hs cs from by
          simp [moduleDelAttr, Module.params, hpk]]
        simpa [moduleSetPlainAttr, Module.params] using
          lookupA_eraseKeyA_self ps k hnd
      · have hnone : lookupA ps k = none := Option.not_isSome_iff_eq_none.mp hpk
        rcases hck : ModuleList.lookupM cs k with _ | c
        · rw [show moduleDelAttr (Module.mk ps as hs cs) k =
              .mk ps (eraseKeyA as k) hs cs from by
            simp [moduleDelAttr, Module.params, Module.children, hpk, hck]]
          simpa [moduleSetPlainAttr, Module.params] using hnone
        · rw [show moduleDelAttr (Module.mk ps as hs cs) k =
              .mk ps as hs (ModuleList.eraseM cs k) from by
            simp [moduleDelAttr, Module.params, Module.children, hpk, hck]]
          simpa [moduleSetPlainAttr, Module.params] using hnone
  refine ⟨hp, ?_, hatt⟩
  intro hmem
  have := lookupA_isSome_of_mem_keys m2.params k hmem
  rw [hp] at this
  exact Bool.false_ne_true this

theorem shard_parameter_demotes_param_witness :
    (shard_parameter specEnv (.mk [("w", some ⟨0, [4], true⟩)] [] [] .nil) "w"
        (.chunk 0 [0]) 0 none).1.params.map Prod.fst = [] ∧
    lookupA (shard_parameter specEnv (.mk [("w", some ⟨0, [4], true⟩)] [] [] .nil) "w"
        (.chunk 0 [0]) 0 none).1.params "w" = none ∧
    moduleGetAttr (shard_parameter specEnv
        (.mk [("w", some ⟨0, [4], true⟩)] [] [] .nil) "w"
        (.chunk 0 [0]) 0 none).1 "w" =
      some (.sharded ⟨.chunk 0 [0], ⟨0, [4], true⟩⟩) := by
  have h := shard_parameter_demotes_param specEnv
    (.mk [("w", some ⟨0, [4], true⟩)] [] [] .nil) "w" (.chunk 0 [0]) 0 none
    (.mk [] [("w", .sharded ⟨.chunk 0 [0], ⟨0, [4], true⟩⟩)] [] .nil)
    ⟨0, [4], true⟩ ⟨.chunk 0 [0], ⟨0, [4], true⟩⟩ rfl rfl rfl rfl
  exact ⟨rfl, h.1, h.2.2⟩

/-- Claim C6: the collapse-to-local hook applied to a sharded output
returns its local shard, and removes the split dimension exactly when the
specification is the chunk variant and the local extent along that
dimension is 1; with any other specification, or any other extent, the
local shard comes back with its shape unchanged. -/
theorem collect_local_shard_squeeze (env : ShardEnv) (sv : ShardedValue) :
    (∀ d pl, sv.sharding_spec = .chunk d pl →
      (sv.local_tensor.size d = 1 →
        runHook env .collectLocalShard (.sharded sv) =
          some (.dense (sv.local_tensor.squeeze d)) ∧
        (sv.local_tensor.squeeze d).shape = sv.local_tensor.shape.eraseIdx d) ∧
      (sv.local_tensor.size d ≠ 1 →
        runHook env .collectLocalShard (.sharded sv) =
          some (.dense sv.local_tensor))) ∧
    (∀ tag, sv.sharding_spec = .enumerable tag →
      runHook env .collectLocalShard (.sharded sv) =
        some (.dense sv.local_tensor)) := by
  constructor
  · intro d pl hspec
    constructor
    · intro h1
      constructor
      · simp [runHook, hspec, h1]
      · simp [Tensor.squeeze, h1]
    · intro h1
      simp [runHook, hspec, h1]
  · intro tag hspec
    simp [runHook, hspec]

theorem collect_local_shard_squeeze_witness :
    runHook specEnv .collectLocalShard
        (.sharded ⟨.chunk 0 [0], ⟨5, [1, 16], true⟩⟩) =
      some (.dense (Tensor.squeeze ⟨5, [1, 16], true⟩ 0)) ∧
    Tensor.squeeze ⟨5, [1, 16], true⟩ 0 = ⟨5, [16], true⟩ ∧
    runHook specEnv .collectLocalShard
        (.sharded ⟨.chunk 0 [0], ⟨6, [2, 16], true⟩⟩) =
      some (.dense ⟨6, [2, 16], true⟩) := by
  refine ⟨?_, by decide, ?_⟩
  · exact ((collect_local_shard_squeeze specEnv
      ⟨.chunk 0 [0], ⟨5, [1, 16], true⟩⟩).1 0 [0] rfl).1 (by decide) |>.1
  · exact ((collect_local_shard_squeeze specEnv
      ⟨.chunk 0 [0], ⟨6, [2, 16], true⟩⟩).1 0 [0] rfl).2 (by decide)

/-- Claim C8: entering the scoping context with an override already
active fails with the reentrancy error and leaves the state alone;
otherwise the group becomes the process-wide override for the body (the
read operation returns it), the body's outcome — success or failure — is
passed through, the override is cleared on every exit path, and
afterwards the read operation returns the ambient default again. -/
theorem load_with_process_group_scoping {β : Type} (state : Option ProcessGroup)
    (g d : ProcessGroup) (body : Option ProcessGroup → Except ApiError β) :
    (state ≠ none →
      load_with_process_group state g body = (state, .error .reentrantLoad)) ∧
    (state = none →
      (load_with_process_group state g body).1 = none ∧
      (load_with_process_group state g body).2 = body (some g) ∧
      getCurrentProcessGroup (some g) d = g ∧
      getCurrentProcessGroup (load_with_process_group state g body).1 d = d) := by
  cases state with
  | none => simp [load_with_process_group, getCurrentProcessGroup]
  | some g2 => simp [load_with_process_group, getCurrentProcessGroup]

theorem load_with_process_group_scoping_witness :
    load_with_process_group (some ⟨1⟩) ⟨2⟩
        (fun st => .ok (getCurrentProcessGroup st ⟨0⟩)) =
      (some ⟨1⟩, .error .reentrantLoad) ∧
    (load_with_process_group none ⟨2⟩
        (fun st => .ok (getCurrentProcessGroup st ⟨0⟩))).1 = none ∧
    (load_with_process_group none ⟨2⟩
        (fun st => .ok (getCurrentProcessGroup st ⟨0⟩))).2 = .ok ⟨2⟩ ∧
    (load_with_process_group none ⟨2⟩
        (fun _ => (.error (.shardOpFailed 9) : Except ApiError ProcessGroup))).1 = none ∧
    getCurrentProcessGroup
      (load_with_process_group none ⟨2⟩
        (fun _ => (.error (.shardOpFailed 9) : Except ApiError ProcessGroup))).1 ⟨0⟩ = ⟨0⟩ := by
  refine ⟨?_, ?_, rfl, ?_, ?_⟩
  · exact (load_with_process_group_scoping (some ⟨1⟩) ⟨2⟩ ⟨0⟩
      (fun st => .ok (getCurrentProcessGroup st ⟨0⟩))).1 (by simp)
  · exact ((load_with_process_group_scoping none ⟨2⟩ ⟨0⟩
      (fun st => .ok (getCurrentProcessGroup st ⟨0⟩))).2 rfl).1
  · exact ((load_with_process_group_scoping none ⟨2⟩ ⟨0⟩
      (fun _ => (.error (.shardOpFailed 9) : Except ApiError ProcessGroup))).2 rfl).1
  · exact ((load_with_process_group_scoping none ⟨2⟩ ⟨0⟩
      (fun _ => (.error (.shardOpFailed 9) : Except ApiError ProcessGroup))).2 rfl).2.2.2

/- ------------------------------------------------------------------ -/
/- Facts about the per-node traversal of shard_module.                -/
/- ------------------------------------------------------------------ -/

/-- Any run of `shard_parameter` either leaves the module untouched or is
the detach-then-install of some sharded value, with no error. -/
theorem shard_parameter_result_cases (env : ShardEnv) (m : Module) (k0 : String)
    (s : ShardingSpec) (r : Nat) (pg : Option ProcessGroup) :
    (shard_parameter env m k0 s r pg).1 = m ∨
    ∃ sv, shard_parameter env m k0 s r pg =
      (moduleSetPlainAttr (moduleDelAttr m k0) k0 (.sharded sv), none) := by
  rcases hg : moduleGetAttr m k0 with _ | v
  · left
    simp [shard_parameter, hg]
  · cases v with
    | tensor t =>
      by_cases hct : t.contiguous
      · rcases hst : shardTensor env t s r pg with e2 | st
        · left
          simp [shard_parameter, hg, hct, hst]
        · right
          exact ⟨st, by simp [shard_parameter, hg, hct, hst]⟩
      · left
        simp [shard_parameter, hg, hct]
    | sharded sv =>
      left
      simp [shard_parameter, hg]
    | pynone =>
      left
      simp [shard_parameter, hg]
    | other s2 =>
      left
      simp [shard_parameter, hg]

/-- Detach-then-install at one name does not disturb any other name, in
either the parameter table or the attribute dict. -/
theorem replace_preserves_other (m : Module) (k0 k : String) (v : PyValue)
    (h : ¬ k = k0) :
    lookupA ((moduleSetPlainAttr (moduleDelAttr m k0) k0 v).params) k =
      lookupA m.params k ∧
    lookupA ((moduleSetPlainAttr (moduleDelAttr m k0) k0 v).attrs) k =
      lookupA m.attrs k := by
  cases m with
  | mk ps as hs cs =>
    by_cases hpk : (lookupA ps k0).isSome
    · simp [moduleDelAttr, moduleSetPlainAttr, hpk,
        lookupA_eraseKeyA_ne ps k0 k h, lookupA_setKeyA_ne as k0 k v h]
    · rcases hck : ModuleList.lookupM cs k0 with _ | c
      · simp [moduleDelAttr, moduleSetPlainAttr, hpk, hck,
          lookupA_setKeyA_ne _ k0 k v h, lookupA_eraseKeyA_ne as k0 k h]
      · simp [moduleDelAttr, moduleSetPlainAttr, hpk, hck,
          lookupA_setKeyA_ne as k0 k v h]

/-- When the replaced name sits in the parameter table, detach-then-install
removes it there, installs the value in the attribute dict, and keeps the
hooks and the child list. -/
theorem replace_fields_of_param (m : Module) (k0 : String) (v : PyValue)
    (hpk : (lookupA m.params k0).isSome = true) :
    (moduleSetPlainAttr (moduleDelAttr m k0) k0 v).params = eraseKeyA m.params k0 ∧
    (moduleSetPlainAttr (moduleDelAttr m k0) k0 v).attrs = setKeyA m.attrs k0 v ∧
    (moduleSetPlainAttr (moduleDelAttr m k0) k0 v).hooks = m.hooks ∧
    (moduleSetPlainAttr (moduleDelAttr m k0) k0 v).children = m.children := by
  cases m with
  | mk ps as hs cs =>
    simp only [Module.params_mk] at hpk
    simp [moduleDelAttr, moduleSetPlainAttr, hpk]

/-- The per-node parameter loop never touches hooks or children. -/
theorem shardNodeParams_preserves_hc (env : ShardEnv) (plan : ShardingPlan)
    (r : Nat) (pg : Option ProcessGroup) (pfx : String) :
    ∀ (keys : List String) (memo : List Nat) (m : Module),
    ((shardNodeParams env plan r pg pfx keys memo m).1).hooks = m.hooks ∧
    ((shardNodeParams env plan r pg pfx keys memo m).1).children = m.children := by
  intro keys
  induction keys with
  | nil =>
    intro memo m
    simp [shardNodeParams]
  | cons k0 rest ih =>
    intro memo m
    rcases hg : lookupA m.params k0 with _ | v
    · simpa [shardNodeParams, hg] using ih memo m
    · cases v with
      | none => simpa [shardNodeParams, hg] using ih memo m
      | some t =>
        by_cases hm : t.objId ∈ memo
        · simpa [shardNodeParams, hg, hm] using ih memo m
        · rcases hp : lookupA plan.plan (extendPfx pfx k0) with _ | s
          · simpa [shardNodeParams, hg, hm, hp] using ih (t.objId :: memo) m
          · rcases hsp : shard_parameter env m k0 s r pg with ⟨m2, oe⟩
            have hm2 : m2.hooks = m.hooks ∧ m2.children = m.children := by
              rcases shard_parameter_result_cases env m k0 s r pg with hc | ⟨sv, hc⟩
              · rw [hsp] at hc
                simp only at hc
                rw [hc]
                exact ⟨rfl, rfl⟩
              · rw [hsp] at hc
                have : m2 = moduleSetPlainAttr (moduleDelAttr m k0) k0 (.sharded sv) :=
                  congrArg Prod.fst hc
                rw [this]
                have hf := replace_fields_of_param m k0 (.sharded sv) (by rw [hg]; rfl)
                exact ⟨hf.2.2.1, hf.2.2.2⟩
            cases oe with
            | none =>
              have := ih (t.objId :: memo) m2
              simp only [shardNodeParams, hg, hm, hp, hsp]
              exact ⟨this.1.trans hm2.1, this.2.trans hm2.2⟩
            | some e =>
              simp only [shardNodeParams, hg, hm, hp, hsp]
              exact hm2

/-- The per-node parameter loop does not disturb names outside the
processed key list. -/
theorem shardNodeParams_preserves_entry (env : ShardEnv) (plan : ShardingPlan)
    (r : Nat) (pg : Option ProcessGroup) (pfx : String) :
    ∀ (keys : List String) (memo : List Nat) (m : Module) (k : String),
    ¬ k ∈ keys →
    lookupA ((shardNodeParams env plan r pg pfx keys memo m).1).params k =
      lookupA m.params k ∧
    lookupA ((shardNodeParams env plan r pg pfx keys memo m).1).attrs k =
      lookupA m.attrs k := by
  intro keys
  induction keys with
  | nil =>
    intro memo m k _
    simp [shardNodeParams]
  | cons k0 rest ih =>
    intro memo m k hk
    have hk0 : ¬ k = k0 := fun h => hk (h ▸ List.mem_cons_self k0 rest)
    have hkr : ¬ k ∈ rest := fun h => hk (List.mem_cons_of_mem k0 h)
    rcases hg : lookupA m.params k0 with _ | v
    · simpa [shardNodeParams, hg] using ih memo m k hkr
    · cases v with
      | none => simpa [shardNodeParams, hg] using ih memo m k hkr
      | some t =>
        by_cases hm : t.objId ∈ memo
        · simpa [shardNodeParams, hg, hm] using ih memo m k hkr
        · rcases hp : lookupA plan.plan (extendPfx pfx k0) with _ | s
          · simpa [shardNodeParams, hg, hm, hp] using ih (t.objId :: memo) m k hkr
          · rcases hsp : shard_parameter env m k0 s r pg with ⟨m2, oe⟩
            have hm2 : lookupA m2.params k = lookupA m.params k ∧
                lookupA m2.attrs k = lookupA m.attrs k := by
              rcases shard_parameter_result_cases env m k0 s r pg with hc | ⟨sv, hc⟩
              · rw [hsp] at hc
                simp only at hc
                rw [hc]
                exact ⟨rfl, rfl⟩
              · rw [hsp] at hc
                have he : m2 = moduleSetPlainAttr (moduleDelAttr m k0) k0 (.sharded sv) :=
                  congrArg Prod.fst hc
                rw [he]
                exact replace_preserves_other m k0 k (.sharded sv) hk0
            cases oe with
            | none =>
              have := ih (t.objId :: memo) m2 k hkr
              simp only [shardNodeParams, hg, hm, hp, hsp]
              exact ⟨this.1.trans hm2.1, this.2.trans hm2.2⟩
            | some e =>
              simp only [shardNodeParams, hg, hm, hp, hsp]
              exact hm2

/-- The dedup memo at work inside one node: a key whose tensor's identity
is already in the memo, or is the identity of the value of an earlier key
of the same node, is skipped — its parameter entry survives untouched and
nothing is installed over its attribute slot, whatever the plan says and
however the run ends. -/
theorem shardNodeParams_skips_alias (env : ShardEnv) (plan : ShardingPlan)
    (r : Nat) (pg : Option ProcessGroup) (pfx : String) :
    ∀ (keys1 keys2 : List String) (memo : List Nat) (m : Module) (k : String)
      (t : Tensor),
    lookupA m.params k = some (some t) →
    ¬ k ∈ keys1 → ¬ k ∈ keys2 → keys1.Nodup →
    (t.objId ∈ memo ∨
      ∃ k1, k1 ∈ keys1 ∧ ∃ t1, lookupA m.params k1 = some (some t1) ∧
        t1.objId = t.objId) →
    lookupA ((shardNodeParams env plan r pg pfx (keys1 ++ k :: keys2) memo m).1).params k =
      some (some t) ∧
    lookupA ((shardNodeParams env plan r pg pfx (keys1 ++ k :: keys2) memo m).1).attrs k =
      lookupA m.attrs k := by
  intro keys1
  induction keys1 with
  | nil =>
    intro keys2 memo m k t hlook _ hk2 _ hw
    have hmemo : t.objId ∈ memo := by
      rcases hw with h | ⟨k1, hk1, -⟩
      · exact h
      · simp at hk1
    have := shardNodeParams_preserves_entry env plan r pg pfx keys2 memo m k hk2
    simpa [shardNodeParams, hlook, hmemo] using this
  | cons k0 keys1' ih =>
    intro keys2 memo m k t hlook hk1 hk2 hnd1 hw
    have hk0 : ¬ k = k0 := fun h => hk1 (h ▸ List.mem_cons_self k0 keys1')
    have hk1' : ¬ k ∈ keys1' := fun h => hk1 (List.mem_cons_of_mem k0 h)
    have hnd1' : keys1'.Nodup := (List.nodup_cons.mp hnd1).2
    have hk0n : ¬ k0 ∈ keys1' := (List.nodup_cons.mp hnd1).1
    rcases hg : lookupA m.params k0 with _ | v
    · -- key k0 has no parameter entry: skipped
      have hw2 : t.objId ∈ memo ∨ ∃ k1, k1 ∈ keys1' ∧ ∃ t1,
          lookupA m.params k1 = some (some t1) ∧ t1.objId = t.objId := by
        rcases hw with h | ⟨k1, hm1, t1, hl1, he1⟩
        · exact Or.inl h
        · rcases List.mem_cons.mp hm1 with h1 | h1
          · rw [h1] at hl1
            rw [hg] at hl1
            exact absurd hl1 (by simp)
          · exact Or.inr ⟨k1, h1, t1, hl1, he1⟩
      simpa [shardNodeParams, hg] using
        ih keys2 memo m k t hlook hk1' hk2 hnd1' hw2
    · cases v with
      | none =>
        have hw2 : t.objId ∈ memo ∨ ∃ k1, k1 ∈ keys1' ∧ ∃ t1,
            lookupA m.params k1 = some (some t1) ∧ t1.objId = t.objId := by
          rcases hw with h | ⟨k1, hm1, t1, hl1, he1⟩
          · exact Or.inl h
          · rcases List.mem_cons.mp hm1 with h1 | h1
            · rw [h1, hg] at hl1
              exact absurd hl1 (by simp)
            · exact Or.inr ⟨k1, h1, t1, hl1, he1⟩
        simpa [shardNodeParams, hg] using
          ih keys2 memo m k t hlook hk1' hk2 hnd1' hw2
      | some t0 =>
        by_cases hm : t0.objId ∈ memo
        · -- k0 itself skipped by the memo
          have hw2 : t.objId ∈ memo ∨ ∃ k1, k1 ∈ keys1' ∧ ∃ t1,
              lookupA m.params k1 = some (some t1) ∧ t1.objId = t.objId := by
            rcases hw with h | ⟨k1, hm1, t1, hl1, he1⟩
            · exact Or.inl h
            · rcases List.mem_cons.mp hm1 with h1 | h1
              · rw [h1, hg] at hl1
                injection hl1 with hl2
                injection hl2 with hl3
                exact Or.inl (by rw [← he1, ← hl3]; exact hm)
              · exact Or.inr ⟨k1, h1, t1, hl1, he1⟩
          simpa [shardNodeParams, hg, hm] using
            ih keys2 memo m k t hlook hk1' hk2 hnd1' hw2
        · -- k0 freshly recorded in the memo
          have hwmemo : ∀ m2 : Module,
              lookupA m2.params k = lookupA m.params k →
              (∀ k1, k1 ∈ keys1' → lookupA m2.params k1 = lookupA m.params k1) →
              t.objId ∈ t0.objId :: memo ∨ ∃ k1, k1 ∈ keys1' ∧ ∃ t1,
                lookupA m2.params k1 = some (some t1) ∧ t1.objId = t.objId := by
            intro m2 hpk hpk1
            rcases hw with h | ⟨k1, hm1, t1, hl1, he1⟩
            · exact Or.inl (List.mem_cons_of_mem _ h)
            · rcases List.mem_cons.mp hm1 with h1 | h1
              · rw [h1, hg] at hl1
                injection hl1 with hl2
                injection hl2 with hl3
                refine Or.inl ?_
                rw [← he1, ← hl3]
                exact List.mem_cons_self _ _
              · exact Or.inr ⟨k1, h1, t1, (hpk1 k1 h1).trans hl1, he1⟩
          rcases hp : lookupA plan.plan (extendPfx pfx k0) with _ | s
          · -- name not in plan: only the memo grows
            have hw2 := hwmemo m rfl (fun _ _ => rfl)
            simpa [shardNodeParams, hg, hm, hp] using
              ih keys2 (t0.objId :: memo) m k t hlook hk1' hk2 hnd1' hw2
          · rcases hsp : shard_parameter env m k0 s r pg with ⟨m2, oe⟩
            have hm2p : lookupA m2.params k = lookupA m.params k ∧
                lookupA m2.attrs k = lookupA m.attrs k := by
              rcases shard_parameter_result_cases env m k0 s r pg with hc | ⟨sv, hc⟩
              · rw [hsp] at hc
                simp only at hc
                rw [hc]
                exact ⟨rfl, rfl⟩
              · rw [hsp] at hc
                have he : m2 = moduleSetPlainAttr (moduleDelAttr m k0) k0 (.sharded sv) :=
                  congrArg Prod.fst hc
                rw [he]
                exact replace_preserves_other m k0 k (.sharded sv) hk0
            have hm2k1 : ∀ k1, k1 ∈ keys1' → lookupA m2.params k1 = lookupA m.params k1 := by
              intro k1 h1
              have hne : ¬ k1 = k0 := fun h => hk0n (h ▸ h1)
              rcases shard_parameter_result_cases env m k0 s r pg with hc | ⟨sv, hc⟩
              · rw [hsp] at hc
                simp only at hc
                rw [hc]
              · rw [hsp] at hc
                have he : m2 = moduleSetPlainAttr (moduleDelAttr m k0) k0 (.sharded sv) :=
                  congrArg Prod.fst hc
                rw [he]
                exact (replace_preserves_other m k0 k1 (.sharded sv) hne).1
            cases oe with
            | none =>
              have hw2 := hwmemo m2 hm2p.1 hm2k1
              have := ih keys2 (t0.objId :: memo) m2 k t
                (hm2p.1.trans hlook) hk1' hk2 hnd1' hw2
              simp only [shardNodeParams, hg, hm, hp, hsp]
              exact ⟨this.1, this.2.trans hm2p.2⟩
            | some e =>
              simp only [shardNodeParams, hg, hm, hp, hsp]
              exact ⟨hm2p.1.trans hlook, hm2p.2⟩

theorem registerForwardHook_params (m : Module) (h : Hook) :
    (registerForwardHook m h).params = m.params := by
  cases m
  simp [registerForwardHook]

theorem registerForwardHook_attrs (m : Module) (h : Hook) :
    (registerForwardHook m h).attrs = m.attrs := by
  cases m
  simp [registerForwardHook]

theorem registerForwardHook_children (m : Module) (h : Hook) :
    (registerForwardHook m h).children = m.children := by
  cases m
  simp [registerForwardHook]

theorem registerForwardHook_hooks (m : Module) (h : Hook) :
    (registerForwardHook m h).hooks = m.hooks ++ [h] := by
  cases m
  simp [registerForwardHook]

/-- Installing the output hooks touches only the hook list. -/
theorem installHooks_fields (plan : ShardingPlan) (pfx : String) (m : Module) :
    (installHooks plan pfx m).params = m.params ∧
    (installHooks plan pfx m).attrs = m.attrs ∧
    (installHooks plan pfx m).children = m.children := by
  unfold installHooks
  rcases hop : plan.output_plan with _ | op
  · rcases hrl : plan.return_local_tensor with _ | rl
    · exact ⟨rfl, rfl, rfl⟩
    · by_cases hmem : pfx ∈ rl <;>
        simp [hmem, collectLocalShard, registerForwardHook_params,
          registerForwardHook_attrs, registerForwardHook_children]
  · rcases hlo : lookupA op pfx with _ | rs
    · rcases hrl : plan.return_local_tensor with _ | rl
      · simp [hlo]
      · by_cases hmem : pfx ∈ rl <;>
          simp [hlo, hmem, collectLocalShard, registerForwardHook_params,
            registerForwardHook_attrs, registerForwardHook_children]
    · rcases hrl : plan.return_local_tensor with _ | rl
      · simp [hlo, reshardOutput, registerForwardHook_params,
          registerForwardHook_attrs, registerForwardHook_children]
      · by_cases hmem : pfx ∈ rl <;>
          simp [hlo, hmem, reshardOutput, collectLocalShard,
            registerForwardHook_params, registerForwardHook_attrs,
            registerForwardHook_children]

theorem lookupA_append_right {α : Type} (l1 l2 : List (String × α)) (k : String)
    (h : ¬ k ∈ l1.map Prod.fst) : lookupA (l1 ++ l2) k = lookupA l2 k := by
  induction l1 with
  | nil => simp
  | cons hd tl ih =>
    cases hd with
    | mk k0 v =>
      have hne : ¬ k0 = k := by
        intro he
        exact h (he ▸ List.mem_cons_self k0 (tl.map Prod.fst))
      rw [List.cons_append, lookupA_cons_ne k0 k v _ hne]
      exact ih (fun hm => h (List.mem_cons_of_mem _ hm))

theorem lookupA_of_mem_nodupKeys {α : Type} (l : List (String × α)) (k : String)
    (v : α) (hnd : nodupKeysA l = true) (h : (k, v) ∈ l) : lookupA l k = some v := by
  induction l with
  | nil => simp at h
  | cons hd tl ih =>
    cases hd with
    | mk k0 w =>
      simp only [nodupKeysA, Bool.and_eq_true, Bool.not_eq_true'] at hnd
      rcases List.mem_cons.mp h with h1 | h1
      · cases h1
        exact lookupA_cons_self k v tl
      · have hne : ¬ k0 = k := by
          intro he
          subst he
          have := lookupA_isSome_of_mem tl k0 v h1
          rw [hnd.1] at this
          exact Bool.false_ne_true this
        rw [lookupA_cons_ne k0 k w tl hne]
        exact ih hnd.2 h1

/-- The within-node skip in per-node-loop terms: when a node's parameter
table holds the same tensor identity under an earlier key and a later key
`k`, the fresh-memo parameter loop over that node's keys leaves entry `k`
untouched — still the dense tensor in the parameter table, nothing
installed over its attribute slot — whatever the plan. -/
theorem shardNodeParams_skips_alias_keys (env : ShardEnv) (plan : ShardingPlan)
    (r : Nat) (pg : Option ProcessGroup) (pfxp : String) (sub : Module)
    (ps1 ps2 : List (String × Option Tensor)) (k k1 : String) (t t1 : Tensor)
    (hps : sub.params = ps1 ++ (k, some t) :: ps2)
    (hmem : (k1, some t1) ∈ ps1) (hid : t1.objId = t.objId)
    (hnd : nodupKeysA sub.params = true) :
    lookupA ((shardNodeParams env plan r pg pfxp
        (sub.params.map Prod.fst) [] sub).1).params k = some (some t) ∧
    lookupA ((shardNodeParams env plan r pg pfxp
        (sub.params.map Prod.fst) [] sub).1).attrs k = lookupA sub.attrs k := by
  have hkeys : sub.params.map Prod.fst = ps1.map Prod.fst ++ k :: ps2.map Prod.fst := by
    rw [hps, List.map_append, List.map_cons]
  have hndk : (ps1.map Prod.fst ++ k :: ps2.map Prod.fst).Nodup := by
    rw [← hkeys]
    exact nodup_keys_of_nodupKeysA _ hnd
  obtain ⟨hnd1, hnd2, hdisj⟩ := List.nodup_append.mp hndk
  have hknotin1 : ¬ k ∈ ps1.map Prod.fst :=
    fun hk => hdisj hk (List.mem_cons_self k _)
  have hknotin2 : ¬ k ∈ ps2.map Prod.fst := (List.nodup_cons.mp hnd2).1
  have hlook : lookupA sub.params k = some (some t) := by
    rw [hps, lookupA_append_right ps1 _ k hknotin1, lookupA_cons_self]
  have hlook1 : lookupA sub.params k1 = some (some t1) :=
    lookupA_of_mem_nodupKeys _ k1 (some t1) hnd (by
      rw [hps]
      exact List.mem_append_left _ hmem)
  have hwit : (t : Tensor).objId ∈ ([] : List Nat) ∨
      ∃ k2, k2 ∈ ps1.map Prod.fst ∧ ∃ t2,
        lookupA sub.params k2 = some (some t2) ∧ t2.objId = t.objId :=
    Or.inr ⟨k1, List.mem_map.mpr ⟨(k1, some t1), hmem, rfl⟩, t1, hlook1, hid⟩
  have hskip := shardNodeParams_skips_alias env plan r pg pfxp
    (ps1.map Prod.fst) (ps2.map Prod.fst) [] sub k t hlook hknotin1 hknotin2 hnd1 hwit
  rw [← hkeys] at hskip
  exact hskip

/-- Claim C1 counterexample, refuting both halves of the original claim.
Within one node owning the same tensor under the earlier key w1 and the
later key w2, with the plan naming w1, the run shards w1 but the later
reference w2 still holds the original dense parameter — it does not
point at the now-shared sharded value. And across nodes: the same tensor
object owned by the two children c1 and c2, with both qualified names in
the plan, is sharded and replaced at both tree positions — the later
position c2.w is not skipped, so the object is not sharded exactly once
at its first pre-order name (the memo does not extend across nodes). -/
theorem shard_module_dedup_counterexample :
    ((shard_module specEnv
        (.mk [("w1", some ⟨0, [4, 16], true⟩), ("w2", some ⟨0, [4, 16], true⟩)]
          [] [] .nil)
        ⟨[("w1", .chunk 0 [0])], none, none⟩ 0 none).2 = none ∧
    moduleGetAttr (shard_module specEnv
        (.mk [("w1", some ⟨0, [4, 16], true⟩), ("w2", some ⟨0, [4, 16], true⟩)]
          [] [] .nil)
        ⟨[("w1", .chunk 0 [0])], none, none⟩ 0 none).1 "w1" =
      some (.sharded ⟨.chunk 0 [0], ⟨0, [4, 16], true⟩⟩) ∧
    moduleGetAttr (shard_module specEnv
        (.mk [("w1", some ⟨0, [4, 16], true⟩), ("w2", some ⟨0, [4, 16], true⟩)]
          [] [] .nil)
        ⟨[("w1", .chunk 0 [0])], none, none⟩ 0 none).1 "w2" =
      some (.tensor ⟨0, [4, 16], true⟩)) ∧
    ((shard_module specEnv
        (.mk [] [] [] (.cons "c1" (.mk [("w", some ⟨0, [4, 16], true⟩)] [] [] .nil)
          (.cons "c2" (.mk [("w", some ⟨0, [4, 16], true⟩)] [] [] .nil) .nil)))
        ⟨[("c1.w", .chunk 0 [0]), ("c2.w", .chunk 0 [0])], none, none⟩ 0 none).2 =
      none ∧
    (shard_module specEnv
        (.mk [] [] [] (.cons "c1" (.mk [("w", some ⟨0, [4, 16], true⟩)] [] [] .nil)
          (.cons "c2" (.mk [("w", some ⟨0, [4, 16], true⟩)] [] [] .nil) .nil)))
        ⟨[("c1.w", .chunk 0 [0]), ("c2.w", .chunk 0 [0])], none, none⟩ 0 none).1.paramAt
      ["c1"] "w" = none ∧
    (shard_module specEnv
        (.mk [] [] [] (.cons "c1" (.mk [("w", some ⟨0, [4, 16], true⟩)] [] [] .nil)
          (.cons "c2" (.mk [("w", some ⟨0, [4, 16], true⟩)] [] [] .nil) .nil)))
        ⟨[("c1.w", .chunk 0 [0]), ("c2.w", .chunk 0 [0])], none, none⟩ 0 none).1.attrAt
      ["c1"] "w" = some (.sharded ⟨.chunk 0 [0], ⟨0, [4, 16], true⟩⟩) ∧
    (shard_module specEnv
        (.mk [] [] [] (.cons "c1" (.mk [("w", some ⟨0, [4, 16], true⟩)] [] [] .nil)
          (.cons "c2" (.mk [("w", some ⟨0, [4, 16], true⟩)] [] [] .nil) .nil)))
        ⟨[("c1.w", .chunk 0 [0]), ("c2.w", .chunk 0 [0])], none, none⟩ 0 none).1.paramAt
      ["c2"] "w" = none ∧
    (shard_module specEnv
        (.mk [] [] [] (.cons "c1" (.mk [("w", some ⟨0, [4, 16], true⟩)] [] [] .nil)
          (.cons "c2" (.mk [("w", some ⟨0, [4, 16], true⟩)] [] [] .nil) .nil)))
        ⟨[("c1.w", .chunk 0 [0]), ("c2.w", .chunk 0 [0])], none, none⟩ 0 none).1.attrAt
      ["c2"] "w" = some (.sharded ⟨.chunk 0 [0], ⟨0, [4, 16], true⟩⟩)) := by
  exact ⟨⟨rfl, rfl, rfl⟩, rfl, rfl, rfl, rfl, rfl⟩


theorem lookupA_none_of_not_mem_keys {α : Type} (l : List (String × α)) (k : String)
    (h : ¬ k ∈ l.map Prod.fst) : lookupA l k = none := by
  rcases hl : lookupA l k with _ | v
  · rfl
  · exact absurd (List.mem_map.mpr ⟨(k, v), lookupA_mem l k v hl, rfl⟩) h

theorem contiguous_of_all (ps : List (String × Option Tensor))
    (h : ps.all (fun p => p.2.all Tensor.contiguous) = true) (k : String) (t : Tensor)
    (hl : lookupA ps k = some (some t)) : t.contiguous = true := by
  have hm := lookupA_mem ps k (some t) hl
  have h2 := List.all_eq_true.mp h _ hm
  simpa [Option.all] using h2

/-- What the per-node loop does on a well-behaved node: every key whose
parameter holds a tensor and whose qualified name is in the plan ends up
sharded (parameter entry removed, sharded value installed, spec's shard
output recorded); every other key of the node is untouched; and the loop
reports no error. -/
theorem shardNodeParams_exact (env : ShardEnv) (plan : ShardingPlan) (r : Nat)
    (pg : Option ProcessGroup) (pfx : String)
    (hG : ∀ s : ShardingSpec, ∀ p ∈ env.allGather pg r s, p = (r, s))
    (hS : ∀ (s : ShardingSpec) (t : Tensor),
      ∃ sv, env.shardOp s t r pg = .ok sv ∧ sv.sharding_spec = s) :
    ∀ (keys : List String) (memo : List Nat) (m : Module),
    keys.Nodup →
    nodupKeysA m.params = true →
    (∀ k2 ∈ keys, (lookupA m.params k2).isSome = true) →
    (∀ k2 ∈ keys, lookupA m.attrs k2 = none) →
    (∀ k2 ∈ keys, ∀ t2, lookupA m.params k2 = some (some t2) → t2.contiguous = true) →
    (∀ k2 ∈ keys, ∀ t2, lookupA m.params k2 = some (some t2) → ¬ t2.objId ∈ memo) →
    (∀ k2 ∈ keys, ∀ k3 ∈ keys, ¬ k2 = k3 → ∀ t2 t3,
      lookupA m.params k2 = some (some t2) → lookupA m.params k3 = some (some t3) →
      ¬ t2.objId = t3.objId) →
    (shardNodeParams env plan r pg pfx keys memo m).2 = none ∧
    (∀ k2 ∈ keys,
      match lookupA m.params k2, lookupA plan.plan (extendPfx pfx k2) with
      | some (some t2), some s2 =>
          lookupA ((shardNodeParams env plan r pg pfx keys memo m).1).params k2 = none ∧
          ∃ sv, lookupA ((shardNodeParams env plan r pg pfx keys memo m).1).attrs k2 =
              some (.sharded sv) ∧ sv.sharding_spec = s2 ∧ env.shardOp s2 t2 r pg = .ok sv
      | _, _ =>
          lookupA ((shardNodeParams env plan r pg pfx keys memo m).1).params k2 =
            lookupA m.params k2 ∧
          lookupA ((shardNodeParams env plan r pg pfx keys memo m).1).attrs k2 =
            lookupA m.attrs k2) := by
  intro keys
  induction keys with
  | nil =>
    intro memo m _ _ _ _ _ _ _
    refine ⟨by simp [shardNodeParams], ?_⟩
    intro k2 hk2
    simp at hk2
  | cons k0 rest ih =>
    intro memo m hknd hnd hsub hattr hcontig hmemo hpair
    have hk0rest : ¬ k0 ∈ rest := (List.nodup_cons.mp hknd).1
    have hrestnd : rest.Nodup := (List.nodup_cons.mp hknd).2
    have hsub0 := hsub k0 (List.mem_cons_self _ _)
    rcases hg : lookupA m.params k0 with _ | v
    · rw [hg] at hsub0
      exact absurd hsub0 (by simp)
    · cases v with
      | none =>
        have step : shardNodeParams env plan r pg pfx (k0 :: rest) memo m =
            shardNodeParams env plan r pg pfx rest memo m := by
          simp [shardNodeParams, hg]
        obtain ⟨ha, hb⟩ := ih memo m hrestnd hnd
          (fun k2 h => hsub k2 (List.mem_cons_of_mem _ h))
          (fun k2 h => hattr k2 (List.mem_cons_of_mem _ h))
          (fun k2 h => hcontig k2 (List.mem_cons_of_mem _ h))
          (fun k2 h => hmemo k2 (List.mem_cons_of_mem _ h))
          (fun k2 h2 k3 h3 => hpair k2 (List.mem_cons_of_mem _ h2) k3
            (List.mem_cons_of_mem _ h3))
        refine ⟨by rw [step]; exact ha, ?_⟩
        intro k2 hk2
        rcases List.mem_cons.mp hk2 with h1 | h1
        · subst h1
          simp only [hg]
          rw [step]
          have hpres := shardNodeParams_preserves_entry env plan r pg pfx rest memo m
            k2 hk0rest
          exact ⟨hpres.1.trans hg, hpres.2⟩
        · rw [step]
          exact hb k2 h1
      | some t0 =>
        have hnotmem : ¬ t0.objId ∈ memo := hmemo k0 (List.mem_cons_self _ _) t0 hg
        rcases hp : lookupA plan.plan (extendPfx pfx k0) with _ | s
        · -- name not in the plan: only the memo grows
          have step : shardNodeParams env plan r pg pfx (k0 :: rest) memo m =
              shardNodeParams env plan r pg pfx rest (t0.objId :: memo) m := by
            simp [shardNodeParams, hg, hnotmem, hp]
          have hmemo2 : ∀ k2 ∈ rest, ∀ t2, lookupA m.params k2 = some (some t2) →
              ¬ t2.objId ∈ t0.objId :: memo := by
            intro k2 h2 t2 hl2 hin
            rcases List.mem_cons.mp hin with hcase | hcase
            · exact hpair k2 (List.mem_cons_of_mem _ h2) k0 (List.mem_cons_self _ _)
                (fun he => hk0rest (he ▸ h2)) t2 t0 hl2 hg hcase
            · exact hmemo k2 (List.mem_cons_of_mem _ h2) t2 hl2 hcase
          obtain ⟨ha, hb⟩ := ih (t0.objId :: memo) m hrestnd hnd
            (fun k2 h => hsub k2 (List.mem_cons_of_mem _ h))
            (fun k2 h => hattr k2 (List.mem_cons_of_mem _ h))
            (fun k2 h => hcontig k2 (List.mem_cons_of_mem _ h))
            hmemo2
            (fun k2 h2 k3 h3 => hpair k2 (List.mem_cons_of_mem _ h2) k3
              (List.mem_cons_of_mem _ h3))
          refine ⟨by rw [step]; exact ha, ?_⟩
          intro k2 hk2
          rcases List.mem_cons.mp hk2 with h1 | h1
          · subst h1
            simp only [hg, hp]
            rw [step]
            have hpres := shardNodeParams_preserves_entry env plan r pg pfx rest
              (t0.objId :: memo) m k2 hk0rest
            exact ⟨hpres.1.trans hg, hpres.2⟩
          · rw [step]
            exact hb k2 h1
        · -- name in the plan: the key is sharded, then the rest runs on the
          -- replaced module
          have hct : t0.contiguous = true := hcontig k0 (List.mem_cons_self _ _) t0 hg
          obtain ⟨sv, hsvo, hsvs⟩ := hS s t0
          have hvalid : validateGathered (env.rankOf pg) r s 0 (env.allGather pg r s) =
              .ok () := (validateGathered_ok_iff _ _ _ _ _).mpr (hG s)
          have hst : shardTensor env t0 s r pg = .ok sv := by
            simp [shardTensor, hct, hvalid, hsvo]
          have hget : moduleGetAttr m k0 = some (.tensor t0) := by
            have ha0 := hattr k0 (List.mem_cons_self _ _)
            simp [moduleGetAttr, ha0, hg]
          have hsp : shard_parameter env m k0 s r pg =
              (moduleSetPlainAttr (moduleDelAttr m k0) k0 (.sharded sv), none) := by
            simp [shard_parameter, hget, hct, hst]
          have hpk : (lookupA m.params k0).isSome = true := by
            rw [hg]
            rfl
          obtain ⟨hf1, hf2, hf3, hf4⟩ := replace_fields_of_param m k0 (.sharded sv) hpk
          have step : shardNodeParams env plan r pg pfx (k0 :: rest) memo m =
              shardNodeParams env plan r pg pfx rest (t0.objId :: memo)
                (moduleSetPlainAttr (moduleDelAttr m k0) k0 (.sharded sv)) := by
            simp [shardNodeParams, hg, hnotmem, hp, hsp]
          have hpres : ∀ k2, ¬ k2 = k0 →
              lookupA (moduleSetPlainAttr (moduleDelAttr m k0) k0 (.sharded sv)).params k2 =
                lookupA m.params k2 ∧
              lookupA (moduleSetPlainAttr (moduleDelAttr m k0) k0 (.sharded sv)).attrs k2 =
                lookupA m.attrs k2 :=
            fun k2 hne => replace_preserves_other m k0 k2 (.sharded sv) hne
          have hnemem : ∀ k2 ∈ rest, ¬ k2 = k0 := fun k2 h2 he => hk0rest (he ▸ h2)
          have hnd2 : nodupKeysA (moduleSetPlainAttr (moduleDelAttr m k0) k0
              (.sharded sv)).params = true := by
            rw [hf1]
            exact nodupKeysA_eraseKeyA m.params k0 hnd
          obtain ⟨ha, hb⟩ := ih (t0.objId :: memo)
            (moduleSetPlainAttr (moduleDelAttr m k0) k0 (.sharded sv)) hrestnd hnd2
            (fun k2 h => by
              rw [(hpres k2 (hnemem k2 h)).1]
              exact hsub k2 (List.mem_cons_of_mem _ h))
            (fun k2 h => by
              rw [(hpres k2 (hnemem k2 h)).2]
              exact hattr k2 (List.mem_cons_of_mem _ h))
            (fun k2 h t2 hl2 => by
              rw [(hpres k2 (hnemem k2 h)).1] at hl2
              exact hcontig k2 (List.mem_cons_of_mem _ h) t2 hl2)
            (fun k2 h t2 hl2 hin => by
              rw [(hpres k2 (hnemem k2 h)).1] at hl2
              rcases List.mem_cons.mp hin with hcase | hcase
              · exact hpair k2 (List.mem_cons_of_mem _ h) k0 (List.mem_cons_self _ _)
                  (hnemem k2 h) t2 t0 hl2 hg hcase
              · exact hmemo k2 (List.mem_cons_of_mem _ h) t2 hl2 hcase)
            (fun k2 h2 k3 h3 hne t2 t3 hl2 hl3 => by
              rw [(hpres k2 (hnemem k2 h2)).1] at hl2
              rw [(hpres k3 (hnemem k3 h3)).1] at hl3
              exact hpair k2 (List.mem_cons_of_mem _ h2) k3 (List.mem_cons_of_mem _ h3)
                hne t2 t3 hl2 hl3)
          refine ⟨by rw [step]; exact ha, ?_⟩
          intro k2 hk2
          rcases List.mem_cons.mp hk2 with h1 | h1
          · rw [h1]
            simp only [hg, hp]
            rw [step]
            have hfin := shardNodeParams_preserves_entry env plan r pg pfx rest
              (t0.objId :: memo)
              (moduleSetPlainAttr (moduleDelAttr m k0) k0 (.sharded sv)) k0 hk0rest
            constructor
            · rw [hfin.1, hf1]
              exact lookupA_eraseKeyA_self m.params k0 hnd
            · refine ⟨sv, ?_, hsvs, hsvo⟩
              rw [hfin.2, hf2]
              exact lookupA_setKeyA_self m.attrs k0 (.sharded sv)
          · have hne := hnemem k2 h1
            have hb2 := hb k2 h1
            rw [(hpres k2 hne).1, (hpres k2 hne).2] at hb2
            rw [step]
            exact hb2

/-- Descending one child step preserves the per-position claim. -/
theorem ClaimAt_descend (env : ShardEnv) (plan : ShardingPlan) (r : Nat)
    (pg : Option ProcessGroup) (m res : Module) (pfx c : String)
    (p : List String) (k : String) (child c2 : Module)
    (hc : m.children.lookupM c = some child)
    (hc2 : res.children.lookupM c = some c2)
    (h : ClaimAt env plan r pg child c2 (extendPfx pfx c) p k) :
    ClaimAt env plan r pg m res pfx (c :: p) k := by
  have e1 : Module.paramAt m (c :: p) k = Module.paramAt child p k := by
    show (match m.children.lookupM c with
      | some mc => Module.paramAt mc p k
      | none => none) = Module.paramAt child p k
    rw [hc]
  have e2 : Module.attrAt m (c :: p) k = Module.attrAt child p k := by
    show (match m.children.lookupM c with
      | some mc => Module.attrAt mc p k
      | none => none) = Module.attrAt child p k
    rw [hc]
  have e3 : Module.paramAt res (c :: p) k = Module.paramAt c2 p k := by
    show (match res.children.lookupM c with
      | some mc => Module.paramAt mc p k
      | none => none) = Module.paramAt c2 p k
    rw [hc2]
  have e4 : Module.attrAt res (c :: p) k = Module.attrAt c2 p k := by
    show (match res.children.lookupM c with
      | some mc => Module.attrAt mc p k
      | none => none) = Module.attrAt c2 p k
    rw [hc2]
  unfold ClaimAt at h ⊢
  rw [e1, e2, e3, e4]
  exact h

mutual
/-- The engine at one node of a well-formed tree, under cross-rank
agreement and a total spec-shard operation: the run succeeds, and every
parameter position of the subtree satisfies the per-position claim —
sharded exactly when its qualified name is in the plan, untouched
otherwise. -/
theorem shardModuleAux_exact (env : ShardEnv) (plan : ShardingPlan) (r : Nat)
    (pg : Option ProcessGroup)
    (hG : ∀ s : ShardingSpec, ∀ p ∈ env.allGather pg r s, p = (r, s))
    (hS : ∀ (s : ShardingSpec) (t : Tensor),
      ∃ sv, env.shardOp s t r pg = .ok sv ∧ sv.sharding_spec = s)
    (m : Module) (pfx : String) (hwf : m.wf = true) :
    (shardModuleAux env plan r pg pfx m).2 = none ∧
    ∀ (path : List String) (k : String),
      ClaimAt env plan r pg m (shardModuleAux env plan r pg pfx m).1 pfx path k := by
  cases m with
  | mk ps as hs cs =>
    simp only [Module.wf, Bool.and_eq_true] at hwf
    obtain ⟨⟨⟨⟨⟨h1, h2⟩, h3⟩, h4⟩, h5⟩, h6⟩ := hwf
    have hnode := shardNodeParams_exact env plan r pg pfx hG hS (ps.map Prod.fst) []
      (.mk ps as hs cs)
      (nodup_keys_of_nodupKeysA ps h1)
      (by simpa using h1)
      (fun k2 h => by simpa using lookupA_isSome_of_mem_keys ps k2 h)
      (fun k2 h => by simpa using lookupA_none_of_disjoint ps as k2 h3 h)
      (fun k2 h t2 hl => contiguous_of_all ps h5 k2 t2 (by simpa using hl))
      (fun k2 h t2 hl => by simp)
      (fun k2 h2 k3 h3 hne t2 t3 hl2 hl3 =>
        pairwise_ids_of_nodupNat ps h4 k2 k3 t2 t3 hne
          (by simpa using hl2) (by simpa using hl3))
    obtain ⟨hnerr, hnodeclaims⟩ := hnode
    rcases hrun : shardNodeParams env plan r pg pfx (ps.map Prod.fst) []
        (.mk ps as hs cs) with ⟨m1, oe⟩
    rw [hrun] at hnerr hnodeclaims
    simp only at hnerr
    subst hnerr
    obtain ⟨hcerr, hchild⟩ := shardChildren_exact env plan r pg hG hS cs pfx h6
    rcases hch : shardChildren env plan r pg pfx cs with ⟨cs2, cerr⟩
    rw [hch] at hcerr hchild
    simp only at hcerr
    subst hcerr
    have hres : shardModuleAux env plan r pg pfx (.mk ps as hs cs) =
        (.mk (installHooks plan pfx m1).params (installHooks plan pfx m1).attrs
          (installHooks plan pfx m1).hooks cs2, none) := by
      simp only [shardModuleAux, Module.params_mk]
      rw [hrun, hch]
    refine ⟨by rw [hres], ?_⟩
    intro path k
    rw [hres]
    have hif := installHooks_fields plan pfx m1
    cases path with
    | nil =>
      unfold ClaimAt
      have ep : Module.paramAt (Module.mk (installHooks plan pfx m1).params
          (installHooks plan pfx m1).attrs (installHooks plan pfx m1).hooks cs2) [] k =
          lookupA m1.params k := by
        show lookupA (Module.mk (installHooks plan pfx m1).params
          (installHooks plan pfx m1).attrs (installHooks plan pfx m1).hooks cs2).params k =
          lookupA m1.params k
        rw [Module.params_mk, hif.1]
      have ea : Module.attrAt (Module.mk (installHooks plan pfx m1).params
          (installHooks plan pfx m1).attrs (installHooks plan pfx m1).hooks cs2) [] k =
          lookupA m1.attrs k := by
        show lookupA (Module.mk (installHooks plan pfx m1).params
          (installHooks plan pfx m1).attrs (installHooks plan pfx m1).hooks cs2).attrs k =
          lookupA m1.attrs k
        rw [Module.attrs_mk, hif.2.1]
      have epm : Module.paramAt (Module.mk ps as hs cs) [] k = lookupA ps k := by
        show lookupA (Module.mk ps as hs cs).params k = lookupA ps k
        rw [Module.params_mk]
      have eam : Module.attrAt (Module.mk ps as hs cs) [] k = lookupA as k := by
        show lookupA (Module.mk ps as hs cs).attrs k = lookupA as k
        rw [Module.attrs_mk]
      rw [ep, ea, epm, eam]
      by_cases hk : k ∈ ps.map Prod.fst
      · have hclaim := hnodeclaims k hk
        simp only [Module.params_mk, Module.attrs_mk] at hclaim
        have epfx : pathPfx pfx ([] : List String) = pfx := rfl
        rw [epfx]
        exact hclaim
      · have hnone : lookupA ps k = none := lookupA_none_of_not_mem_keys ps k hk
        have hpres := shardNodeParams_preserves_entry env plan r pg pfx
          (ps.map Prod.fst) [] (.mk ps as hs cs) k hk
        rw [hrun] at hpres
        simp only [Module.params_mk, Module.attrs_mk] at hpres
        rw [hnone]
        exact ⟨hpres.1.trans hnone, hpres.2⟩
    | cons c p =>
      have hchildc := hchild c
      simp only [Module.children_mk] at hchildc ⊢
      rcases hlc : ModuleList.lookupM cs c with _ | child
      · rw [hlc] at hchildc
        simp only at hchildc
        unfold ClaimAt
        have e1 : Module.paramAt (Module.mk ps as hs cs) (c :: p) k = none := by
          show (match (Module.mk ps as hs cs).children.lookupM c with
            | some mc => Module.paramAt mc p k
            | none => none) = none
          rw [Module.children_mk, hlc]
        have e2 : Module.attrAt (Module.mk ps as hs cs) (c :: p) k = none := by
          show (match (Module.mk ps as hs cs).children.lookupM c with
            | some mc => Module.attrAt mc p k
            | none => none) = none
          rw [Module.children_mk, hlc]
        have e3 : Module.paramAt (Module.mk (installHooks plan pfx m1).params
            (installHooks plan pfx m1).attrs (installHooks plan pfx m1).hooks cs2)
            (c :: p) k = none := by
          show (match (Module.mk (installHooks plan pfx m1).params
              (installHooks plan pfx m1).attrs (installHooks plan pfx m1).hooks
              cs2).children.lookupM c with
            | some mc => Module.paramAt mc p k
            | none => none) = none
          rw [Module.children_mk, hchildc]
        have e4 : Module.attrAt (Module.mk (installHooks plan pfx m1).params
            (installHooks plan pfx m1).attrs (installHooks plan pfx m1).hooks cs2)
            (c :: p) k = none := by
          show (match (Module.mk (installHooks plan pfx m1).params
              (installHooks plan pfx m1).attrs (installHooks plan pfx m1).hooks
              cs2).children.lookupM c with
            | some mc => Module.attrAt mc p k
            | none => none) = none
          rw [Module.children_mk, hchildc]
        rw [e1, e2, e3, e4]
        exact ⟨rfl, rfl⟩
      · rw [hlc] at hchildc
        simp only at hchildc
        obtain ⟨c2, hc2eq, hcl⟩ := hchildc
        exact ClaimAt_descend env plan r pg (Module.mk ps as hs cs)
          (Module.mk (installHooks plan pfx m1).params (installHooks plan pfx m1).attrs
            (installHooks plan pfx m1).hooks cs2) pfx c p k child c2
          (by rw [Module.children_mk, hlc]) (by rw [Module.children_mk, hc2eq])
          (hcl p k)

/-- The engine over a child list of a well-formed tree: the traversal
succeeds and each named child is replaced by its processed version, every
position of which satisfies the per-position claim. -/
theorem shardChildren_exact (env : ShardEnv) (plan : ShardingPlan) (r : Nat)
    (pg : Option ProcessGroup)
    (hG : ∀ s : ShardingSpec, ∀ p ∈ env.allGather pg r s, p = (r, s))
    (hS : ∀ (s : ShardingSpec) (t : Tensor),
      ∃ sv, env.shardOp s t r pg = .ok sv ∧ sv.sharding_spec = s)
    (cs : ModuleList) (pfx : String) (hwf : ModuleList.wfL cs = true) :
    (shardChildren env plan r pg pfx cs).2 = none ∧
    ∀ name : String,
      match cs.lookupM name with
      | none => ((shardChildren env plan r pg pfx cs).1).lookupM name = none
      | some c => ∃ c2, ((shardChildren env plan r pg pfx cs).1).lookupM name = some c2 ∧
          ∀ (path : List String) (k : String),
            ClaimAt env plan r pg c c2 (extendPfx pfx name) path k := by
  cases cs with
  | nil =>
    refine ⟨by simp [shardChildren], ?_⟩
    intro name
    simp [ModuleList.lookupM, shardChildren]
  | cons name0 c rest =>
    simp only [ModuleList.wfL, Bool.and_eq_true] at hwf
    obtain ⟨⟨hdup, hcwf⟩, hrwf⟩ := hwf
    obtain ⟨hcerr, hcclaim⟩ := shardModuleAux_exact env plan r pg hG hS c
      (extendPfx pfx name0) hcwf
    rcases hc2run : shardModuleAux env plan r pg (extendPfx pfx name0) c with ⟨c2, oe⟩
    rw [hc2run] at hcerr hcclaim
    simp only at hcerr
    subst hcerr
    obtain ⟨hrerr, hrclaim⟩ := shardChildren_exact env plan r pg hG hS rest pfx hrwf
    rcases hrrun : shardChildren env plan r pg pfx rest with ⟨rest2, cerr⟩
    rw [hrrun] at hrerr hrclaim
    simp only at hrerr
    subst hrerr
    have hstep : shardChildren env plan r pg pfx (.cons name0 c rest) =
        (.cons name0 c2 rest2, none) := by
      simp only [shardChildren]
      rw [hc2run, hrrun]
    refine ⟨by rw [hstep], ?_⟩
    intro name
    rw [hstep]
    by_cases hname : name0 = name
    · subst hname
      have el : ModuleList.lookupM (.cons name0 c rest) name0 = some c := by
        simp [ModuleList.lookupM]
      have el2 : ModuleList.lookupM (.cons name0 c2 rest2) name0 = some c2 := by
        simp [ModuleList.lookupM]
      rw [el]
      simp only [el2]
      exact ⟨c2, rfl, fun path k => hcclaim path k⟩
    · have el : ModuleList.lookupM (.cons name0 c rest) name =
          ModuleList.lookupM rest name := by
        simp [ModuleList.lookupM, hname]
      have el2 : ModuleList.lookupM (.cons name0 c2 rest2) name =
          ModuleList.lookupM rest2 name := by
        simp [ModuleList.lookupM, hname]
      rw [el, el2]
      exact hrclaim name
end

/-- Claim C5 (amended): for every well-formed module tree (duplicate-free
keys, parameter names disjoint from plain attributes, no two parameter
slots of one node aliasing the same object, contiguous parameters) and
every plan, under cross-rank agreement and a total spec-shard operation,
`shard_module` succeeds and at every parameter position: if the
position's fully-qualified dotted name is a key of the plan's parameter
mapping, the parameter is sharded with that entry's specification
(removed from the parameter table, the spec's sharded value installed
under the name); every other parameter position - and its attribute
slot - is left untouched. -/
theorem shard_module_exact_plan (env : ShardEnv) (plan : ShardingPlan) (r : Nat)
    (pg : Option ProcessGroup) (m : Module)
    (hG : ∀ s : ShardingSpec, ∀ p ∈ env.allGather pg r s, p = (r, s))
    (hS : ∀ (s : ShardingSpec) (t : Tensor),
      ∃ sv, env.shardOp s t r pg = .ok sv ∧ sv.sharding_spec = s)
    (hwf : m.wf = true) :
    (shard_module env m plan r pg).2 = none ∧
    ∀ (path : List String) (k : String),
      ClaimAt env plan r pg m (shard_module env m plan r pg).1 "" path k :=
  shardModuleAux_exact env plan r pg hG hS m "" hwf

theorem shard_module_exact_plan_witness :
    (shard_module specEnv
        (.mk [] [] [] (.cons "linear"
          (.mk [("weight", some ⟨1, [8, 4], true⟩), ("bias", some ⟨2, [8], true⟩)]
            [] [] .nil) .nil))
        ⟨[("linear.weight", .chunk 0 [0])], none, none⟩ 0 none).2 = none ∧
    ClaimAt specEnv ⟨[("linear.weight", .chunk 0 [0])], none, none⟩ 0 none
      (.mk [] [] [] (.cons "linear"
        (.mk [("weight", some ⟨1, [8, 4], true⟩), ("bias", some ⟨2, [8], true⟩)]
          [] [] .nil) .nil))
      (shard_module specEnv
        (.mk [] [] [] (.cons "linear"
          (.mk [("weight", some ⟨1, [8, 4], true⟩), ("bias", some ⟨2, [8], true⟩)]
            [] [] .nil) .nil))
        ⟨[("linear.weight", .chunk 0 [0])], none, none⟩ 0 none).1
      "" ["linear"] "weight" ∧
    ClaimAt specEnv ⟨[("linear.weight", .chunk 0 [0])], none, none⟩ 0 none
      (.mk [] [] [] (.cons "linear"
        (.mk [("weight", some ⟨1, [8, 4], true⟩), ("bias", some ⟨2, [8], true⟩)]
          [] [] .nil) .nil))
      (shard_module specEnv
        (.mk [] [] [] (.cons "linear"
          (.mk [("weight", some ⟨1, [8, 4], true⟩), ("bias", some ⟨2, [8], true⟩)]
            [] [] .nil) .nil))
        ⟨[("linear.weight", .chunk 0 [0])], none, none⟩ 0 none).1
      "" ["linear"] "bias" := by
  have h := shard_module_exact_plan specEnv
    ⟨[("linear.weight", .chunk 0 [0])], none, none⟩ 0 none
    (.mk [] [] [] (.cons "linear"
      (.mk [("weight", some ⟨1, [8, 4], true⟩), ("bias", some ⟨2, [8], true⟩)]
        [] [] .nil) .nil))
    (by intro s p hp; simpa [specEnv] using hp)
    (fun s t => ⟨⟨s, t⟩, rfl, rfl⟩)
    (by decide)
  exact ⟨h.1, h.2 ["linear"] "weight", h.2 ["linear"] "bias"⟩

/-- Claim C5 counterexample: one node owns the same tensor under the
earlier key a and the later key b; the plan names b. The run succeeds but
returns the module completely unchanged: b's fully-qualified name is a
key of the plan's parameter mapping, yet its parameter is not sharded
(the within-node dedup memo skips the later alias before the plan is
consulted). -/
theorem shard_module_plan_key_skipped_counterexample :
    lookupA (⟨[("b", .chunk 0 [0])], none, none⟩ : ShardingPlan).plan "b" =
      some (.chunk 0 [0]) ∧
    (shard_module specEnv
        (.mk [("a", some ⟨0, [4, 16], true⟩), ("b", some ⟨0, [4, 16], true⟩)]
          [] [] .nil)
        ⟨[("b", .chunk 0 [0])], none, none⟩ 0 none).2 = none ∧
    (shard_module specEnv
        (.mk [("a", some ⟨0, [4, 16], true⟩), ("b", some ⟨0, [4, 16], true⟩)]
          [] [] .nil)
        ⟨[("b", .chunk 0 [0])], none, none⟩ 0 none).1 =
      .mk [("a", some ⟨0, [4, 16], true⟩), ("b", some ⟨0, [4, 16], true⟩)]
        [] [] .nil := by
  refine ⟨rfl, rfl, rfl⟩

/-- Installing the output hooks at a visited node appends exactly the
hook suffix determined by the node's path. -/
theorem installHooks_hooks_suffix (plan : ShardingPlan) (pfx : String) (m : Module) :
    (installHooks plan pfx m).hooks = m.hooks ++ hookSuffix plan pfx := by
  unfold installHooks hookSuffix
  rcases hop : plan.output_plan with _ | op
  · rcases hrl : plan.return_local_tensor with _ | rl
    · simp
    · by_cases hmem : pfx ∈ rl <;>
        simp [hmem, collectLocalShard, registerForwardHook_hooks]
  · rcases hlo : lookupA op pfx with _ | rs
    · rcases hrl : plan.return_local_tensor with _ | rl
      · simp [hlo]
      · by_cases hmem : pfx ∈ rl <;>
          simp [hlo, hmem, collectLocalShard, registerForwardHook_hooks]
    · rcases hrl : plan.return_local_tensor with _ | rl
      · simp [hlo, reshardOutput, registerForwardHook_hooks]
      · by_cases hmem : pfx ∈ rl <;>
          simp [hlo, hmem, reshardOutput, collectLocalShard,
            registerForwardHook_hooks, List.append_assoc]

/-- A path present in both the resharding mapping and the collapse set
gets the reshard hook followed by the collapse hook. -/
theorem hookSuffix_both (plan : ShardingPlan) (pfx : String)
    (op : List (String × ShardingSpec)) (rs : ShardingSpec) (rl : List String)
    (hop : plan.output_plan = some op) (hrs : lookupA op pfx = some rs)
    (hrl : plan.return_local_tensor = some rl) (hmem : pfx ∈ rl) :
    hookSuffix plan pfx = [.reshard rs, .collectLocalShard] := by
  unfold hookSuffix
  simp [hop, hrs, hrl, hmem]

mutual
/-- Per-node locality of a successful run: the engine's effect on each
node of the tree is exactly the per-node parameter loop started with a
fresh, empty memo on that node alone (so it depends only on that node —
not on any other node's contents or aliasing), followed by appending the
path's hook suffix. -/
theorem shardModuleAux_subAt (env : ShardEnv) (plan : ShardingPlan) (r : Nat)
    (pg : Option ProcessGroup) (m : Module) (pfx : String)
    (hsucc : (shardModuleAux env plan r pg pfx m).2 = none) :
    ∀ path : List String,
      match Module.subAt m path with
      | none => Module.subAt (shardModuleAux env plan r pg pfx m).1 path = none
      | some sub => ∃ sub2,
          Module.subAt (shardModuleAux env plan r pg pfx m).1 path = some sub2 ∧
          sub2.params = (shardNodeParams env plan r pg (pathPfx pfx path)
            (sub.params.map Prod.fst) [] sub).1.params ∧
          sub2.attrs = (shardNodeParams env plan r pg (pathPfx pfx path)
            (sub.params.map Prod.fst) [] sub).1.attrs ∧
          sub2.hooks = sub.hooks ++ hookSuffix plan (pathPfx pfx path) := by
  cases m with
  | mk ps as hs cs =>
    rcases hrun : shardNodeParams env plan r pg pfx (ps.map Prod.fst) []
        (.mk ps as hs cs) with ⟨m1, oe⟩
    cases oe with
    | some e =>
      exfalso
      rw [show shardModuleAux env plan r pg pfx (.mk ps as hs cs) = (m1, some e) from by
        simp only [shardModuleAux, Module.params_mk]
        rw [hrun]] at hsucc
      exact absurd hsucc (by simp)
    | none =>
      rcases hch : shardChildren env plan r pg pfx cs with ⟨cs2, cerr⟩
      have hres : shardModuleAux env plan r pg pfx (.mk ps as hs cs) =
          (.mk (installHooks plan pfx m1).params (installHooks plan pfx m1).attrs
            (installHooks plan pfx m1).hooks cs2, cerr) := by
        simp only [shardModuleAux, Module.params_mk]
        rw [hrun, hch]
      have hcerr : cerr = none := by
        rw [hres] at hsucc
        simpa using hsucc
      subst hcerr
      have hchsub := shardChildren_subAt env plan r pg cs pfx (by rw [hch])
      intro path
      rw [hres]
      cases path with
      | nil =>
        simp only [Module.subAt]
        have hback : (shardNodeParams env plan r pg (pathPfx pfx [])
            ((Module.mk ps as hs cs).params.map Prod.fst) []
            (.mk ps as hs cs)).1 = m1 := by
          show (shardNodeParams env plan r pg pfx (ps.map Prod.fst) []
            (.mk ps as hs cs)).1 = m1
          rw [hrun]
        have hm1hooks : m1.hooks = hs := by
          have h0 := (shardNodeParams_preserves_hc env plan r pg pfx
            (ps.map Prod.fst) [] (.mk ps as hs cs)).1
          rw [hrun] at h0
          simpa using h0
        refine ⟨_, rfl, ?_, ?_, ?_⟩
        · rw [Module.params_mk, (installHooks_fields plan pfx m1).1, hback]
        · rw [Module.attrs_mk, (installHooks_fields plan pfx m1).2.1, hback]
        · rw [Module.hooks_mk, installHooks_hooks_suffix plan pfx m1, hm1hooks]
          rfl
      | cons c p =>
        have h0 := hchsub c p
        rw [hch] at h0
        rcases hlc : ModuleList.lookupM cs c with _ | child
        · rw [hlc] at h0
          simp only at h0
          have e1 : Module.subAt (Module.mk ps as hs cs) (c :: p) = none := by
            show (match (Module.mk ps as hs cs).children.lookupM c with
              | some mc => Module.subAt mc p
              | none => none) = none
            rw [Module.children_mk, hlc]
          rw [e1]
          show (match (Module.mk (installHooks plan pfx m1).params
              (installHooks plan pfx m1).attrs (installHooks plan pfx m1).hooks
              cs2).children.lookupM c with
            | some mc => Module.subAt mc p
            | none => none) = none
          rw [Module.children_mk, h0]
        · rw [hlc] at h0
          simp only at h0
          obtain ⟨c2, hc2, hinner⟩ := h0
          have e1 : Module.subAt (Module.mk ps as hs cs) (c :: p) =
              Module.subAt child p := by
            show (match (Module.mk ps as hs cs).children.lookupM c with
              | some mc => Module.subAt mc p
              | none => none) = Module.subAt child p
            rw [Module.children_mk, hlc]
          have e2 : Module.subAt (Module.mk (installHooks plan pfx m1).params
              (installHooks plan pfx m1).attrs (installHooks plan pfx m1).hooks cs2)
              (c :: p) = Module.subAt c2 p := by
            show (match (Module.mk (installHooks plan pfx m1).params
                (installHooks plan pfx m1).attrs (installHooks plan pfx m1).hooks
                cs2).children.lookupM c with
              | some mc => Module.subAt mc p
              | none => none) = Module.subAt c2 p
            rw [Module.children_mk, hc2]
          rw [e1, e2]
          exact hinner

/-- Per-node locality over a child list: each named child is replaced by
its processed version, whose every node satisfies the same fresh-memo
locality. -/
theorem shardChildren_subAt (env : ShardEnv) (plan : ShardingPlan) (r : Nat)
    (pg : Option ProcessGroup) (cs : ModuleList) (pfx : String)
    (hsucc : (shardChildren env plan r pg pfx cs).2 = none) :
    ∀ (name : String) (path : List String),
      match cs.lookupM name with
      | none => ((shardChildren env plan r pg pfx cs).1).lookupM name = none
      | some c => ∃ c2,
          ((shardChildren env plan r pg pfx cs).1).lookupM name = some c2 ∧
          (match Module.subAt c path with
           | none => Module.subAt c2 path = none
           | some sub => ∃ sub2, Module.subAt c2 path = some sub2 ∧
              sub2.params = (shardNodeParams env plan r pg
                (pathPfx (extendPfx pfx name) path)
                (sub.params.map Prod.fst) [] sub).1.params ∧
              sub2.attrs = (shardNodeParams env plan r pg
                (pathPfx (extendPfx pfx name) path)
                (sub.params.map Prod.fst) [] sub).1.attrs ∧
              sub2.hooks = sub.hooks ++
                hookSuffix plan (pathPfx (extendPfx pfx name) path)) := by
  cases cs with
  | nil =>
    intro name path
    simp [ModuleList.lookupM, shardChildren]
  | cons name0 c rest =>
    rcases hc2run : shardModuleAux env plan r pg (extendPfx pfx name0) c with ⟨c2, oe⟩
    cases oe with
    | some e =>
      exfalso
      rw [show shardChildren env plan r pg pfx (.cons name0 c rest) =
          (.cons name0 c2 rest, some e) from by
        simp only [shardChildren]
        rw [hc2run]] at hsucc
      exact absurd hsucc (by simp)
    | none =>
      rcases hrrun : shardChildren env plan r pg pfx rest with ⟨rest2, cerr⟩
      have hstep : shardChildren env plan r pg pfx (.cons name0 c rest) =
          (.cons name0 c2 rest2, cerr) := by
        simp only [shardChildren]
        rw [hc2run, hrrun]
      have hcerr : cerr = none := by
        rw [hstep] at hsucc
        simpa using hsucc
      subst hcerr
      have hcsub := shardModuleAux_subAt env plan r pg c (extendPfx pfx name0)
        (by rw [hc2run])
      rw [hc2run] at hcsub
      have hrsub := shardChildren_subAt env plan r pg rest pfx (by rw [hrrun])
      rw [hrrun] at hrsub
      intro name path
      rw [hstep]
      by_cases hname : name0 = name
      · subst hname
        have el : ModuleList.lookupM (.cons name0 c rest) name0 = some c := by
          simp [ModuleList.lookupM]
        rw [el]
        exact ⟨c2, by simp [ModuleList.lookupM], hcsub path⟩
      · have el : ModuleList.lookupM (.cons name0 c rest) name =
            ModuleList.lookupM rest name := by
          simp [ModuleList.lookupM, hname]
        have el2 : ModuleList.lookupM (.cons name0 c2 rest2) name =
            ModuleList.lookupM rest2 name := by
          simp [ModuleList.lookupM, hname]
        rw [el, el2]
        exact hrsub name path
end

/-- Claim C1 (amended): in a successful `shard_module` run the aliasing
memo is scoped to each module node, not to the whole run. First, per-node
scoping and cross-node independence: the run's effect on the parameter
table and attribute dict of every node of the tree is exactly the
per-node parameter loop started with a fresh, empty memo on that node
alone — a function of that node only, so a parameter object reachable
from a different node is processed independently there. Second, the
within-node skip: an entry of a node whose tensor is physically identical
(by object identity) to the value of an earlier entry of the same node is
left holding the original dense parameter in the parameter table, with
nothing installed under its name — it does not point at the sharded
value, whatever the plan says. -/
theorem shard_module_dedup_per_node (env : ShardEnv) (plan : ShardingPlan)
    (r : Nat) (pg : Option ProcessGroup) (m : Module) (path : List String)
    (sub : Module)
    (hsub : Module.subAt m path = some sub)
    (hsucc : (shard_module env m plan r pg).2 = none) :
    (∃ sub2, Module.subAt (shard_module env m plan r pg).1 path = some sub2 ∧
      sub2.params = (shardNodeParams env plan r pg (pathPfx "" path)
        (sub.params.map Prod.fst) [] sub).1.params ∧
      sub2.attrs = (shardNodeParams env plan r pg (pathPfx "" path)
        (sub.params.map Prod.fst) [] sub).1.attrs) ∧
    (∀ (ps1 ps2 : List (String × Option Tensor)) (k k1 : String) (t t1 : Tensor),
      sub.params = ps1 ++ (k, some t) :: ps2 →
      (k1, some t1) ∈ ps1 → t1.objId = t.objId →
      nodupKeysA sub.params = true →
      ∃ sub2, Module.subAt (shard_module env m plan r pg).1 path = some sub2 ∧
        lookupA sub2.params k = some (some t) ∧
        lookupA sub2.attrs k = lookupA sub.attrs k) := by
  have hmain := shardModuleAux_subAt env plan r pg m "" hsucc path
  rw [hsub] at hmain
  simp only at hmain
  obtain ⟨sub2, hsa, hp, ha, -⟩ := hmain
  refine ⟨⟨sub2, hsa, hp, ha⟩, ?_⟩
  intro ps1 ps2 k k1 t t1 hps hmem hid hnd
  have hskip := shardNodeParams_skips_alias_keys env plan r pg (pathPfx "" path) sub
    ps1 ps2 k k1 t t1 hps hmem hid hnd
  refine ⟨sub2, hsa, ?_, ?_⟩
  · rw [hp]
    exact hskip.1
  · rw [ha]
    exact hskip.2

theorem shard_module_dedup_per_node_witness :
    Module.subAt (shard_module specEnv
        (.mk [] [] [] (.cons "c"
          (.mk [("w1", some ⟨0, [4, 16], true⟩), ("w2", some ⟨0, [4, 16], true⟩)]
            [] [] .nil) .nil))
        ⟨[("c.w1", .chunk 0 [0])], none, none⟩ 0 none).1 ["c"] =
      some (.mk [("w2", some ⟨0, [4, 16], true⟩)]
        [("w1", .sharded ⟨.chunk 0 [0], ⟨0, [4, 16], true⟩⟩)] [] .nil) ∧
    lookupA (Module.mk [("w2", some ⟨0, [4, 16], true⟩)]
        [("w1", .sharded ⟨.chunk 0 [0], ⟨0, [4, 16], true⟩⟩)] [] .nil).params "w2" =
      some (some ⟨0, [4, 16], true⟩) ∧
    lookupA (Module.mk [("w2", some ⟨0, [4, 16], true⟩)]
        [("w1", .sharded ⟨.chunk 0 [0], ⟨0, [4, 16], true⟩⟩)] [] .nil).attrs "w2" =
      lookupA (Module.mk [("w1", some ⟨0, [4, 16], true⟩),
        ("w2", some ⟨0, [4, 16], true⟩)] [] [] .nil).attrs "w2" := by
  have h := (shard_module_dedup_per_node specEnv
    ⟨[("c.w1", .chunk 0 [0])], none, none⟩ 0 none
    (.mk [] [] [] (.cons "c"
      (.mk [("w1", some ⟨0, [4, 16], true⟩), ("w2", some ⟨0, [4, 16], true⟩)]
        [] [] .nil) .nil))
    ["c"]
    (.mk [("w1", some ⟨0, [4, 16], true⟩), ("w2", some ⟨0, [4, 16], true⟩)]
      [] [] .nil)
    rfl rfl).2
    [("w1", some ⟨0, [4, 16], true⟩)] [] "w2" "w1"
    ⟨0, [4, 16], true⟩ ⟨0, [4, 16], true⟩ rfl
    (List.mem_singleton.mpr rfl) rfl (by decide)
  obtain ⟨sub2, hsa, hp, ha⟩ := h
  have he : sub2 = .mk [("w2", some ⟨0, [4, 16], true⟩)]
      [("w1", .sharded ⟨.chunk 0 [0], ⟨0, [4, 16], true⟩⟩)] [] .nil := by
    have h2 := hsa.symm.trans (show Module.subAt (shard_module specEnv
      (.mk [] [] [] (.cons "c"
        (.mk [("w1", some ⟨0, [4, 16], true⟩), ("w2", some ⟨0, [4, 16], true⟩)]
          [] [] .nil) .nil))
      ⟨[("c.w1", .chunk 0 [0])], none, none⟩ 0 none).1 ["c"] =
      some (.mk [("w2", some ⟨0, [4, 16], true⟩)]
        [("w1", .sharded ⟨.chunk 0 [0], ⟨0, [4, 16], true⟩⟩)] [] .nil) from rfl)
    injection h2
  subst he
  exact ⟨hsa, hp, ha⟩

/-- Claim C7: when a module path — anywhere in the tree — sits in both
the resharding mapping and the collapse set, a successful `shard_module`
run leaves that node's hook list extended by the reshard hook first and
the collapse hook second; under the host's hook chaining (registration
order, a hook returning a value replaces the running output, a hook
returning nothing leaves it) a forward output therefore first passes the
node's pre-existing hooks, is then resharded to the target specification,
and the collapse-to-local transformation is applied to the resharded
result. -/
theorem shard_module_installs_both_hooks (env : ShardEnv) (plan : ShardingPlan)
    (r : Nat) (pg : Option ProcessGroup) (m : Module)
    (op : List (String × ShardingSpec)) (rs : ShardingSpec) (rl : List String)
    (path : List String) (sub : Module)
    (hop : plan.output_plan = some op)
    (hrs : lookupA op (pathPfx "" path) = some rs)
    (hrl : plan.return_local_tensor = some rl)
    (hmem : pathPfx "" path ∈ rl)
    (hsub : Module.subAt m path = some sub)
    (hsucc : (shard_module env m plan r pg).2 = none) :
    (∃ sub2, Module.subAt (shard_module env m plan r pg).1 path = some sub2 ∧
      sub2.hooks = sub.hooks ++ [.reshard rs, .collectLocalShard]) ∧
    ∀ out : TValue,
      runHooks env (sub.hooks ++ [.reshard rs, .collectLocalShard]) out =
        (runHook env .collectLocalShard
          ((runHook env (.reshard rs) (runHooks env sub.hooks out)).getD
            (runHooks env sub.hooks out))).getD
          ((runHook env (.reshard rs) (runHooks env sub.hooks out)).getD
            (runHooks env sub.hooks out)) := by
  constructor
  · have hmain := shardModuleAux_subAt env plan r pg m "" hsucc path
    rw [hsub] at hmain
    simp only at hmain
    obtain ⟨sub2, hsa, -, -, hh⟩ := hmain
    refine ⟨sub2, hsa, ?_⟩
    rw [hh, hookSuffix_both plan (pathPfx "" path) op rs rl hop hrs hrl hmem]
  · intro out
    simp [runHooks, List.foldl_append]

theorem shard_module_installs_both_hooks_witness :
    Module.subAt (shard_module specEnv
        (.mk [] [] [] (.cons "linear"
          (.mk [("weight", some ⟨1, [8, 4], true⟩)] [] [] .nil) .nil))
        ⟨[], some [("linear", .chunk 0 [0])], some ["linear"]⟩ 0 none).1 ["linear"] =
      some (.mk [("weight", some ⟨1, [8, 4], true⟩)] []
        [.reshard (.chunk 0 [0]), .collectLocalShard] .nil) ∧
    runHooks specEnv [.reshard (.chunk 0 [0]), .collectLocalShard]
        (.sharded ⟨.chunk 0 [0], ⟨5, [1, 16], true⟩⟩) =
      (runHook specEnv .collectLocalShard
        ((runHook specEnv (.reshard (.chunk 0 [0]))
          (.sharded ⟨.chunk 0 [0], ⟨5, [1, 16], true⟩⟩)).getD
          (.sharded ⟨.chunk 0 [0], ⟨5, [1, 16], true⟩⟩))).getD
        ((runHook specEnv (.reshard (.chunk 0 [0]))
          (.sharded ⟨.chunk 0 [0], ⟨5, [1, 16], true⟩⟩)).getD
          (.sharded ⟨.chunk 0 [0], ⟨5, [1, 16], true⟩⟩)) := by
  have h := shard_module_installs_both_hooks specEnv
    ⟨[], some [("linear", .chunk 0 [0])], some ["linear"]⟩ 0 none
    (.mk [] [] [] (.cons "linear"
      (.mk [("weight", some ⟨1, [8, 4], true⟩)] [] [] .nil) .nil))
    [("linear", .chunk 0 [0])] (.chunk 0 [0]) ["linear"] ["linear"]
    (.mk [("weight", some ⟨1, [8, 4], true⟩)] [] [] .nil)
    rfl rfl rfl (by decide) rfl rfl
  refine ⟨rfl, ?_⟩
  have h2 := h.2 (.sharded ⟨.chunk 0 [0], ⟨5, [1, 16], true⟩⟩)
  simp only [Module.hooks_mk, List.nil_append] at h2
  rw [h2]
  rfl

end ShardApi
